import Mathlib

/-!
Verification of the `macaron.slsa_analyzer.git_url` module.

This file gives a shallow embedding, in Lean, of the pure computation
performed by `src/macaron/slsa_analyzer/git_url.py`, together with models of
the external effects (subprocess invocations, the filesystem) as explicit
environment parameters.  Python strings are embedded as `List Char`
(wrapped in `String` at API boundaries); Python `dict` is embedded as an
insertion-ordered association list; raised exceptions are embedded as
explicit result constructors.

External library code that the module calls (CPython's `urllib.parse`,
`os.path`, `str` methods, and the `packaging.version` parser) is not part of
the repository; those parts are modelled faithfully from the documented
behaviour of those libraries (and, for `packaging.version`, from the spec's
description of version ordering), as noted on each definition.
-/

set_option maxRecDepth 10000

namespace GitUrl

/-! ### Python string primitives, embedded on `List Char` -/

/-- Characters removed by Python's `str.strip()` with no argument
(ASCII whitespace; the rare unicode whitespace cases are out of scope). -/
def pyWs (c : Char) : Bool :=
  c = ' ' || c = '\t' || c = '\n' || c = '\r' || c = '\x0b' || c = '\x0c'

/-- Python `s.lstrip(chars)` for a predicate over characters. -/
def lstripBy (p : Char → Bool) (l : List Char) : List Char := l.dropWhile p

/-- Python `s.rstrip(chars)` for a predicate over characters. -/
def rstripBy (p : Char → Bool) (l : List Char) : List Char :=
  (l.reverse.dropWhile p).reverse

/-- Python `s.strip(chars)` for a predicate over characters. -/
def stripBy (p : Char → Bool) (l : List Char) : List Char := rstripBy p (lstripBy p l)

/-- Python `s.lstrip(c)` for a single character. -/
def lstripChar (c : Char) (l : List Char) : List Char := lstripBy (· = c) l

/-- Python `s.rstrip(c)` for a single character. -/
def rstripChar (c : Char) (l : List Char) : List Char := rstripBy (· = c) l

/-- Python `s.strip(c)` for a single character. -/
def stripChar (c : Char) (l : List Char) : List Char := stripBy (· = c) l

/-- Python `s.strip()` (whitespace on both ends). -/
def stripWs (l : List Char) : List Char := stripBy pyWs l

/-- Python `s.split(sep)` for a one-character separator: splits at every
occurrence, keeping empty pieces (`"a//b".split("/") == ["a","","b"]`). -/
def splitChar (c : Char) : List Char → List (List Char)
  | [] => [[]]
  | x :: xs =>
    if x = c then [] :: splitChar c xs
    else
      match splitChar c xs with
      | [] => [[x]]
      | h :: t => (x :: h) :: t

/-- Boolean list-prefix test (Python `s.startswith(pat)`), by structural
recursion so that closed instances evaluate by `decide`. -/
def isPrefL : List Char → List Char → Bool
  | [], _ => true
  | _ :: _, [] => false
  | x :: xs, y :: ys => x = y && isPrefL xs ys

/-- Python `s.endswith(pat)`. -/
def endsL (pat l : List Char) : Bool := isPrefL pat.reverse l.reverse

/-- Worker for `replaceAll`, with explicit fuel to keep the recursion
structural (each step consumes at least one character, so `l.length` fuel
is always enough). -/
def replaceAllGo (pat : List Char) : Nat → List Char → List Char
  | _, [] => []
  | 0, l => l
  | fuel + 1, x :: xs =>
    if pat ≠ [] ∧ isPrefL pat (x :: xs) then
      replaceAllGo pat fuel ((x :: xs).drop pat.length)
    else
      x :: replaceAllGo pat fuel xs

/-- Python `s.replace(pat, "")`: deletes every (left-to-right,
non-overlapping) occurrence of `pat`; with an empty pattern the string is
unchanged, as in CPython. -/
def replaceAll (pat l : List Char) : List Char := replaceAllGo pat l.length l

/-- Splits at the first occurrence of `c`: `some (before, after)` with
`l = before ++ c :: after`, or `none` when `c` does not occur. -/
def splitFirstChar (c : Char) : List Char → Option (List Char × List Char)
  | [] => none
  | x :: xs =>
    if x = c then some ([], xs)
    else (splitFirstChar c xs).map (fun p => (x :: p.1, p.2))

/-- Python `s.partition(c)`, collapsed to the two outer components: when `c`
does not occur the result is `(l, [])`, as Python returns `(s, '', '')`. -/
def pyPartition (c : Char) (l : List Char) : List Char × List Char :=
  match splitFirstChar c l with
  | some (a, b) => (a, b)
  | none => (l, [])

/-- Python `s.rpartition(c)`, collapsed to the two outer components: when `c`
does not occur the result is `([], l)`, as Python returns `('', '', s)`. -/
def pyRpartition (c : Char) (l : List Char) : List Char × List Char :=
  match splitFirstChar c l.reverse with
  | some (a, b) => (b.reverse, a.reverse)
  | none => ([], l)

/-- Python `s.isdecimal()` restricted to ASCII digits (the URLs in scope are
ASCII; non-ASCII decimals are not modelled). -/
def isDecimalL (l : List Char) : Bool := !l.isEmpty && l.all Char.isDigit

/-- Python `s.splitlines()` restricted to `\n` separators, which is the
line format of the `git` text output parsed by this module.  It differs
from CPython only in that a trailing newline yields one extra empty
element, and every parser below discards empty lines. -/
def splitLinesStr (s : String) : List String := (splitChar '\n' s.toList).map String.mk

/-! ### Tag index construction (`get_tags_via_git_remote`) -/

/-- Python dict assignment `m[k] = v`: overwrite in place if the key exists,
else append.  Only key lookup and final contents are observed. -/
def dictInsert (m : List (String × String)) (k v : String) : List (String × String) :=
  if m.any (fun p => p.1 = k) then
    m.map (fun p => if p.1 = k then (k, v) else p)
  else
    m ++ [(k, v)]

/-- Key membership, Python `k in tags`. -/
def dictHasKey (m : List (String × String)) (k : String) : Bool :=
  m.any (fun p => p.1 = k)

/-- The per-line loop of `get_tags_via_git_remote`
(`git_url.py` lines 965-983), translated clause by clause:
strip the line, skip blanks, split on a tab, require exactly two fields,
strip a trailing dereference suffix (in which case the entry always
overwrites), otherwise skip refs already present as keys, delete every
occurrence of `refs/tags/`, skip empty names, and store. -/
def tagLinesLoop : List String → List (String × String) → List (String × String)
  | [], m => m
  | line :: rest, m =>
    let l := stripWs line.toList
    if l = [] then tagLinesLoop rest m
    else
      match splitChar '\t' l with
      | [digest, ref] =>
        if endsL ['^', '\x7b', '\x7d'] ref then
          let t := replaceAll ("refs/tags/".toList) (ref.take (ref.length - 3))
          if t = [] then tagLinesLoop rest m
          else tagLinesLoop rest (dictInsert m (String.mk t) (String.mk digest))
        else if dictHasKey m (String.mk ref) then
          tagLinesLoop rest m
        else
          let t := replaceAll ("refs/tags/".toList) ref
          if t = [] then tagLinesLoop rest m
          else tagLinesLoop rest (dictInsert m (String.mk t) (String.mk digest))
      | _ => tagLinesLoop rest m

/-- Environment of one `git ls-remote` subprocess invocation
(`list_remote_references`, `git_url.py` lines 377-415): whether the process
could be spawned, its exit code, and its captured standard output. -/
structure LsRemoteEnv where
  spawns : Bool
  exitCode : Nat
  stdout : String
  stderr : String
deriving DecidableEq

/-- Embedding of `list_remote_references` (`git_url.py` lines 377-415): a
spawn failure or a non-zero exit code yields `None`, a successful run
yields the decoded standard output. -/
def list_remote_references (env : LsRemoteEnv) : Option String :=
  if !env.spawns then none
  else if env.exitCode ≠ 0 then none
  else some env.stdout

/-- Embedding of `get_tags_via_git_remote` (`git_url.py` lines 947-987) as a
function of the `tag_data` value returned by `list_remote_references`.
Python's `if not tag_data` treats both `None` and the empty string as
failure. -/
def get_tags_via_git_remote (tag_data : Option String) : Option (List (String × String)) :=
  match tag_data with
  | none => none
  | some s => if s = "" then none else some (tagLinesLoop (splitLinesStr s) [])

/-! ### Version ranking (`find_highest_git_tag`) -/

/-- Numeric value of a digit string. -/
def natOfDigits (l : List Char) : Nat := l.foldl (fun a c => 10 * a + (c.toNat - 48)) 0

/-- Modelled from the spec: the version interpretation of a tag string under
`packaging.version.Version`, which is external library code.  Per the
spec's `ParsedVersion` (numeric release segments, an optional leading
`v`/`V` as accepted by PEP 440), a tag parses when, after an optional
`v`/`V` prefix, it is a non-empty dot-separated list of non-empty digit
runs; the result is the list of release components.  Pre-release, post,
dev, epoch and local suffixes are not modelled; tags using them simply do
not parse here, which only shrinks the set of inputs the theorems cover. -/
def parseVersionRelease (s : String) : Option (List Nat) :=
  let l := s.toList
  let l := if l.head? = some 'v' ∨ l.head? = some 'V' then l.drop 1 else l
  let parts := splitChar '.' l
  if parts.all (fun p => !p.isEmpty && p.all Char.isDigit) then
    some (parts.map natOfDigits)
  else none

/-- True when every release component is zero (a zero-padded tail compares
equal to the empty tail). -/
def allZeroN : List Nat → Bool
  | [] => true
  | x :: xs => x = 0 && allZeroN xs

/-- Modelled from the spec: comparison of release tuples, element-wise with
the shorter tuple zero-padded (spec §4.5: `v4 < v4.2.1`), exactly PEP 440
release ordering. -/
def releaseCmp : List Nat → List Nat → Ordering
  | [], ys => if allZeroN ys then .eq else .lt
  | x :: xs, [] => if allZeroN (x :: xs) then .eq else .gt
  | x :: xs, y :: ys =>
    if x < y then .lt else if y < x then .gt else releaseCmp xs ys

/-- The scan of `find_highest_git_tag` (`git_url.py` lines 1040-1052):
`highest_tag` starts as `None`, the running maximum starts as
`Version("0")` (release `[0]`), and both are updated only when a tag
parses to a strictly greater version. -/
def fhgtLoop : List String → Option String → List Nat → Option String
  | [], best, _ => best
  | t :: ts, best, bestV =>
    match parseVersionRelease t with
    | none => fhgtLoop ts best bestV
    | some v =>
      if releaseCmp v bestV = .gt then fhgtLoop ts (some t) v
      else fhgtLoop ts best bestV

/-- Embedding of `find_highest_git_tag` (`git_url.py` lines 990-1057), with
the tag set given in iteration order and `GitTagError` embedded as
`Except.error` carrying the message. -/
def find_highest_git_tag (tags : List String) : Except String String :=
  if tags.isEmpty then .error "No tags provided."
  else
    match fhgtLoop tags none [0] with
    | none => .error "No valid version tag found."
    | some t => .ok t

/-! ### Repository acquisition (`clone_remote_repo`) -/

/-- Environment of one `clone_remote_repo` call (`git_url.py` lines
273-374): the state of the target directory and the behaviour of the two
possible subprocess invocations (`git fetch` for an existing non-empty
directory, `git clone` otherwise).  The captured outputs and the URL are
carried so the theorems can state what the result does *not* depend on. -/
structure CloneEnv where
  url : String
  dirExists : Bool
  /-- `os.rmdir` succeeds exactly when the directory is empty. -/
  dirEmpty : Bool
  /-- whether the `git fetch` subprocess could be spawned (an `OSError`
  on spawn is the only exception the `except` arm can catch there, since
  `subprocess.run` is called with `check=False`). -/
  fetchSpawns : Bool
  fetchExitCode : Nat
  fetchStdout : String
  fetchStderr : String
  cloneSpawns : Bool
  cloneExitCode : Nat
  cloneStdout : String
  cloneStderr : String
deriving DecidableEq

/-- Result of `clone_remote_repo`: either a raised `CloneError` carrying its
message, or a normal return of `git.Repo | None` (the handle embedded as
the directory path). -/
inductive CloneOutcome where
  | raised (msg : String)
  | returned (repo : Option String)
deriving DecidableEq

/-- The fresh-clone tail of `clone_remote_repo` (`git_url.py` lines
343-374): a spawn failure raises a fixed message; a non-zero exit raises a
second fixed message; otherwise the handle over `clone_dir` is returned. -/
def cloneFresh (env : CloneEnv) (clone_dir : String) : CloneOutcome :=
  if !env.cloneSpawns then
    .raised "Failed to clone repository."
  else if env.cloneExitCode ≠ 0 then
    .raised "Failed to clone repository: the `git clone --filter=tree:0` command exited with non-zero return code."
  else
    .returned (some clone_dir)

/-- Embedding of `clone_remote_repo` (`git_url.py` lines 273-374).  An
existing empty directory is removed and freshly cloned; an existing
non-empty directory is updated with `git fetch` whose exit code is *not*
inspected (`check=False`, result unused), so a handle is returned whenever
the fetch process spawns and `None` only on a spawn `OSError`; a
non-existing directory goes to the fresh-clone tail. -/
def clone_remote_repo (env : CloneEnv) (clone_dir : String) : CloneOutcome :=
  if env.dirExists then
    if env.dirEmpty then cloneFresh env clone_dir
    else if env.fetchSpawns then .returned (some clone_dir)
    else .returned none
  else cloneFresh env clone_dir

/-! ### Checkout state machine (`check_out_repo_target`) -/

/-- Worker for `parse_git_branch_output`. -/
def branchLinesLoop : List String → List String
  | [] => []
  | line :: rest =>
    let branch := stripWs (replaceAll ['*'] line.toList)
    if branch = [] then branchLinesLoop rest
    else String.mk branch :: branchLinesLoop rest

/-- Embedding of `parse_git_branch_output` (`git_url.py` lines 34-81):
per line, delete every `*`, strip whitespace, and drop lines that become
empty. -/
def parse_git_branch_output (content : String) : List String :=
  branchLinesLoop (splitLinesStr content)

/-- Environment of a `check_out_repo_target` call: the current HEAD commit,
the outcome of a forced checkout of a given ref (the resulting HEAD on
success, `none` on `GitCommandError`), and the raw output of
`git branch --remotes --list <remote>/* --contains <commit>` (`none` on
`GitCommandError`). -/
structure GitEnv where
  head : String
  checkout : String → Option String
  branchContains : String → String → Option String

/-- Embedding of `get_branches_containing_commit` (`git_url.py` lines
84-115): on a command error return `[]`, else parse the branch listing. -/
def get_branches_containing_commit (env : GitEnv) (commit remote : String) : List String :=
  match env.branchContains remote commit with
  | none => []
  | some out => parse_git_branch_output out

/-- Observable outcome of `check_out_repo_target`: the returned boolean, the
final HEAD commit, and the ordered list of refs passed to
`git checkout --force` (failed attempts included). -/
structure CheckoutOutcome where
  ok : Bool
  head : String
  issued : List String
deriving DecidableEq

/-- The post-checkout validation of `check_out_repo_target` (`git_url.py`
lines 205-216): an unreadable HEAD fails, a requested commit that HEAD does
not equal fails, otherwise succeed. -/
def checkoutValidate (digest head : String) (issued : List String) : CheckoutOutcome :=
  if head = "" then ⟨false, head, issued⟩
  else if digest ≠ "" ∧ head ≠ digest then ⟨false, head, issued⟩
  else ⟨true, head, issued⟩

/-- Embedding of `check_out_repo_target` (`git_url.py` lines 118-216).  The
four `if` blocks of the source are mutually exclusive in the
(branch, digest, offline) flags, so they are rendered as one case split;
each checkout is recorded in `issued` and moves HEAD on success. -/
def check_out_repo_target (env : GitEnv) (branch_name digest : String)
    (offline_mode : Bool) : CheckoutOutcome :=
  if !offline_mode ∧ branch_name = "" ∧ digest = "" then
    match env.checkout "origin/HEAD" with
    | none => ⟨false, env.head, ["origin/HEAD"]⟩
    | some h1 => checkoutValidate digest h1 ["origin/HEAD"]
  else if branch_name ≠ "" ∧ digest = "" then
    match env.checkout ("origin/" ++ branch_name) with
    | none => ⟨false, env.head, ["origin/" ++ branch_name]⟩
    | some h1 => checkoutValidate digest h1 ["origin/" ++ branch_name]
  else if branch_name = "" ∧ digest ≠ "" then
    match env.checkout digest with
    | none => ⟨false, env.head, [digest]⟩
    | some h1 => checkoutValidate digest h1 [digest]
  else if branch_name ≠ "" ∧ digest ≠ "" then
    if ("origin/" ++ branch_name) ∈ get_branches_containing_commit env digest "origin" then
      match env.checkout digest with
      | none => ⟨false, env.head, [digest]⟩
      | some h1 => checkoutValidate digest h1 [digest]
    else ⟨false, env.head, []⟩
  else
    checkoutValidate digest env.head []

/-! ### Repo-path cleaning (`clean_up_repo_path`) -/

/-- Embedding of `clean_up_repo_path` (`git_url.py` lines 602-618):
strip spaces from both ends, strip all trailing `/`, then drop a trailing
`.git` (Python slice `[:-4]`) when present. -/
def clean_up_repo_path (repo_path : String) : String :=
  let cleaned := rstripChar '/' (stripChar ' ' repo_path.toList)
  String.mk (if endsL ".git".toList cleaned then cleaned.take (cleaned.length - 4) else cleaned)

/-! ### Safe local-path resolution (`resolve_local_path`) -/

/-- `"/".join(components)`. -/
def joinSlash : List String → String
  | [] => ""
  | [x] => x
  | x :: y :: ys => x ++ "/" ++ joinSlash (y :: ys)

/-- Modelled from the spec (CPython `posixpath.commonpath` internals, which
are external library code): the split of one path into components, with
empty and `.` components discarded. -/
def splitCompCP (s : String) : List String :=
  ((splitChar '/' s.toList).map String.mk).filter (fun c => c != "" && c != ".")

/-- Element-wise longest common lead of two component lists: what
`posixpath.commonpath`'s scan over the lexicographic min/max computes for
two paths. -/
def commonLead : List String → List String → List String
  | x :: xs, y :: ys => if x = y then x :: commonLead xs ys else []
  | _, _ => []

/-- Modelled from the spec (CPython `os.path.commonpath` for exactly the
two paths the source passes): `none` embeds the `ValueError` raised on
mixing an absolute with a relative path; otherwise the common lead of the
filtered component lists, re-rendered with the absolute marker. -/
def commonpath2 (p q : String) : Option String :=
  if (p.toList.head? = some '/') ↔ (q.toList.head? = some '/') then
    some ((if p.toList.head? = some '/' then "/" else "")
      ++ joinSlash (commonLead (splitCompCP p) (splitCompCP q)))
  else none

/-- Modelled from the spec (CPython `posixpath.join` for two arguments):
an absolute second path replaces the first; otherwise they are joined with
a `/` unless the first is empty or already ends with one. -/
def pjoin (a b : String) : String :=
  if b.toList.head? = some '/' then b
  else if a = "" ∨ a.toList.getLast? = some '/' then a ++ b
  else a ++ "/" ++ b

/-- Embedding of `resolve_local_path` (`git_url.py` lines 418-449), with
`os.path.realpath(·, strict=True)` — the only filesystem-dependent step —
abstracted as the oracle `realpath`, returning `none` for the `OSError`
cases (missing path, symlink loop) and the canonical path otherwise.  Any
error yields the empty string; otherwise the canonicalized join is
returned only when `commonpath` of it and the canonical boundary equals
the canonical boundary. -/
def resolve_local_path (realpath : String → Option String)
    (start_dir local_path : String) : String :=
  match realpath start_dir with
  | none => ""
  | some dir_real =>
    match realpath (pjoin start_dir local_path) with
    | none => ""
    | some resolve_path =>
      match commonpath2 resolve_path dir_real with
      | none => ""
      | some c => if c ≠ dir_real then "" else resolve_path

/-- The canonical rendering of an absolute path from its components. -/
def renderAbs (cs : List String) : String := "/" ++ joinSlash cs

/-- The string `s` is the canonical absolute path with components `cs`:
exactly the shape `os.path.realpath` output has (absolute, normalized, no
empty or `.` components, components free of separators). -/
def CanonAbs (cs : List String) (s : String) : Prop :=
  s = renderAbs cs ∧ ∀ c ∈ cs, c ≠ "" ∧ c ≠ "." ∧ '/' ∉ c.toList

/-! ### URL normalization (`clean_url`, `parse_remote_url`)

The module parses URLs with CPython's `urllib.parse.urlparse`, which is
external library code; it is modelled here from its documented algorithm
(strip the unsafe bytes tab/CR/LF, detect a scheme, split a `//` authority
at the first of `/?#`, split the fragment at the first `#`, the query at
the first `?`, and the last segment's `;`-parameters).  CPython's netloc
validation accepts a bracketed netloc only when it carries a valid IPv6
address; the model rejects every bracketed netloc, a narrowing that is
irrelevant to the hostnames in scope. -/

/-- The 6-tuple produced by `urllib.parse.urlparse` /
`urllib.parse.ParseResult`. -/
structure PyParseResult where
  scheme : String
  netloc : String
  path : String
  params : String
  query : String
  fragment : String
deriving DecidableEq

/-- The all-empty `ParseResult` (a *truthy* value in Python — a
namedtuple is never falsy — which is why `parse_remote_url` returning it
is observably different from returning `None`). -/
def emptyParseResult : PyParseResult := ⟨"", "", "", "", "", ""⟩

/-- The bytes CPython's `urlsplit` removes from the URL before parsing. -/
def urlUnsafe (c : Char) : Bool := c = '\t' || c = '\r' || c = '\n'

/-- Removal of the unsafe bytes (`_UNSAFE_URL_BYTES_TO_REMOVE`). -/
def removeUnsafe (l : List Char) : List Char := l.filter (fun c => !urlUnsafe c)

/-- CPython `scheme_chars`. -/
def schemeChar (c : Char) : Bool := c.isAlpha || c.isDigit || c = '+' || c = '-' || c = '.'

/-- Scheme detection of `urlsplit`: a scheme is recognized when the text
before the first `:` is non-empty, starts with an ASCII letter and
consists of scheme characters; it is lowercased and removed, otherwise the
input is left untouched. -/
def extractScheme (l : List Char) : List Char × List Char :=
  match splitFirstChar ':' l with
  | some (before, after) =>
    match before with
    | [] => ([], l)
    | b :: bs =>
      if b.isAlpha && (b :: bs).all schemeChar then
        ((b :: bs).map Char.toLower, after)
      else ([], l)
  | none => ([], l)

/-- The characters ending a netloc (`_splitnetloc` delimiters). -/
def netlocDelim (c : Char) : Bool := c = '/' || c = '?' || c = '#'

/-- `_splitnetloc`: the authority runs to the first of `/?#`. -/
def splitNetloc (l : List Char) : List Char × List Char :=
  (l.takeWhile (fun c => !netlocDelim c), l.dropWhile (fun c => !netlocDelim c))

/-- `_splitparams` (applied by `urlparse` when the path contains `;`):
parameters are split off at the first `;` of the last `/`-separated
segment. -/
def pySplitparams (l : List Char) : List Char × List Char :=
  if ';' ∈ l then
    if '/' ∈ l then
      let tail := (l.reverse.takeWhile (· ≠ '/')).reverse
      let pre := (l.reverse.dropWhile (· ≠ '/')).reverse
      match splitFirstChar ';' tail with
      | none => (l, [])
      | some (a, b) => (pre ++ a, b)
    else
      match splitFirstChar ';' l with
      | none => (l, [])
      | some (a, b) => (a, b)
  else (l, [])

/-- Modelled from the spec: CPython `urllib.parse.urlparse` (see the
section comment above); `none` embeds a raised `ValueError`. -/
def pyUrlparse (s : String) : Option PyParseResult :=
  let u0 := removeUnsafe s.toList
  let sp := extractScheme u0
  let np := if sp.2.take 2 = ['/', '/'] then splitNetloc (sp.2.drop 2) else ([], sp.2)
  if '[' ∈ np.1 ∨ ']' ∈ np.1 then none
  else
    let fp := pyPartition '#' np.2
    let qp := pyPartition '?' fp.1
    let pp := pySplitparams qp.1
    some ⟨String.mk sp.1, String.mk np.1, String.mk pp.1, String.mk pp.2,
      String.mk qp.2, String.mk fp.2⟩

/-- The scheme markers of the prefix-stripping regex in `clean_url`
(`git_url.py` line 665), in the regex's alternation order. -/
def urlMarkers : List (List Char) :=
  ["git+http".toList, "http".toList, "ftp".toList, "ssh+git".toList,
    "ssh".toList, "git@".toList]

/-- The lazy `(?P<prefix>(.*?))(marker)` search of `clean_url`: the prefix
up to the earliest position where a marker matches, or `none` when no
marker matches (the regex's `.` does not cross a newline, so the search
aborts at the first line break). -/
def markerSearch : List Char → Option (List Char)
  | [] => none
  | x :: xs =>
    if urlMarkers.any (fun m => isPrefL m (x :: xs)) then some []
    else if x = '\n' then none
    else (markerSearch xs).map (fun p => x :: p)

/-- Embedding of `clean_url` (`git_url.py` lines 650-674): find the text
before the first scheme marker, delete **every** occurrence of that text
(Python `str.replace` replaces all occurrences), and parse the result;
`none` when no marker is found. -/
def clean_url (s : String) : Option PyParseResult :=
  match markerSearch s.toList with
  | none => none
  | some pre => pyUrlparse (String.mk (replaceAll pre s.toList))

/-- The URL-scheme dialect set of `parse_remote_url`. -/
def urlSchemes : List String := ["http", "https", "ftp", "ftps", "git+https"]

/-- The SSH-URI dialect set of `parse_remote_url`. -/
def sshSchemes : List String := ["ssh", "git+ssh"]

/-- Embedding of `parse_remote_url` (`git_url.py` lines 677-796),
branch for branch: the URL-scheme dialect checks the netloc against the
allow-list and takes the first two path segments; the SSH dialect splits
`user@host[:port]`, merging a non-numeric port back into the path; the
scheme-less SCP dialect splits `user@host:port_or_path` out of the path
itself; any other scheme falls through to the final constructor with all
result fields still empty, producing the (truthy) empty `ParseResult`
rather than `None`. -/
def parse_remote_url (url : String) (allowed : List String) : Option PyParseResult :=
  match clean_url url with
  | none => none
  | some pu =>
    if pu.scheme ∈ urlSchemes then
      if pu.netloc ∈ allowed then
        match splitChar '/' (stripChar '/' pu.path.toList) with
        | p0 :: p1 :: _ =>
          some ⟨"https", pu.netloc, String.mk (p0 ++ '/' :: p1), "", "", ""⟩
        | _ => none
      else none
    else if pu.scheme ∈ sshSchemes then
      let up := pyPartition ':' pu.netloc.toList
      let uh := pyRpartition '@' up.1
      if uh.1 ≠ [] ∧ String.mk uh.2 ∈ allowed then
        let path := if !isDecimalL up.2 then up.2 ++ '/' :: stripChar '/' pu.path.toList
          else pu.path.toList
        match splitChar '/' (stripChar '/' path) with
        | p0 :: p1 :: _ =>
          some ⟨"https", String.mk uh.2, String.mk (p0 ++ '/' :: p1), "", "", ""⟩
        | _ => none
      else none
    else if pu.scheme = "" then
      let up := pyPartition ':' pu.path.toList
      if up.1 ≠ [] ∧ up.2 ≠ [] then
        let uh := pyRpartition '@' up.1
        if uh.1 ≠ [] ∧ String.mk uh.2 ∈ allowed then
          let pn := pyPartition '/' (stripChar '/' up.2)
          let path := if !isDecimalL pn.1 then up.2 else pn.2
          match splitChar '/' (stripChar '/' path) with
          | p0 :: p1 :: _ =>
            some ⟨"https", String.mk uh.2, String.mk (p0 ++ '/' :: p1), "", "", ""⟩
          | _ => none
        else none
      else none
    else some emptyParseResult

/-- Modelled from the spec: CPython `urllib.parse.urlunparse` /
`urlunsplit`, external library code, from its documented algorithm. -/
def urlunparse (r : PyParseResult) : String :=
  let url0 := r.path.toList ++ (if r.params.toList ≠ [] then ';' :: r.params.toList else [])
  let url1 :=
    if r.netloc.toList ≠ [] ∨ url0.take 2 = ['/', '/'] then
      '/' :: '/' :: r.netloc.toList
        ++ (if url0 ≠ [] ∧ url0.head? ≠ some '/' then '/' :: url0 else url0)
    else url0
  let url2 := if r.scheme.toList ≠ [] then r.scheme.toList ++ ':' :: url1 else url1
  let url3 := url2 ++ (if r.query.toList ≠ [] then '?' :: r.query.toList else [])
  String.mk (url3 ++ (if r.fragment.toList ≠ [] then '#' :: r.fragment.toList else []))

/-- Embedding of `get_remote_vcs_url` (`git_url.py` lines 621-647) with its
default `clean_up=True`: reconstruct the parsed URL and clean it up, or
return the empty string when parsing fails. -/
def get_remote_vcs_url (url : String) (allowed : List String) : String :=
  match parse_remote_url url allowed with
  | none => ""
  | some r => clean_up_repo_path (urlunparse r)

/-- The owner segment of a two-segment result path. -/
def ownerOf (path : String) : String := String.mk (path.toList.takeWhile (· ≠ '/'))

/-- The name segment of a two-segment result path. -/
def nameOf (path : String) : String :=
  String.mk ((path.toList.dropWhile (· ≠ '/')).drop 1)

/-- Characters that can occur in a host produced by `parse_remote_url`:
everything the netloc/path splits have already cut away. -/
def hostOkC (c : Char) : Prop := c ≠ '?' ∧ c ≠ '#' ∧ urlUnsafe c = false

/-- Characters that can occur in an owner/name segment produced by
`parse_remote_url`. -/
def segOkC (c : Char) : Prop := c ≠ '/' ∧ c ≠ '?' ∧ c ≠ '#' ∧ urlUnsafe c = false

end GitUrl

namespace GitUrl

/-! ### Theorems for claims C1, C2, C10 -/

/-- C1.  The claim states that `find_highest_git_tag` raises the
no-valid-version-tag error iff no tag parsed successfully.  This is false:
the running maximum is initialised to `Version("0")` and updated only on a
strictly greater version, so for the tag set with the single tag `"0"` —
which parses as a perfectly valid PEP 440 version with release `[0]` — the
function still raises `GitTagError "No valid version tag found."`,
contradicting its own docstring ("Raises ... If no valid tag is found").
This theorem evaluates the embedding at that failing input. -/
theorem find_highest_git_tag_rejects_version_zero :
    parseVersionRelease "0" = some [0] ∧
      find_highest_git_tag ["0"] = .error "No valid version tag found." := by
  constructor <;> rfl

/-- C2.  The claim (and the source's own comment at `git_url.py` lines
976-978) states that when the dereferenced line of an annotated tag arrives
before the tag-object line, the tag-object line is skipped, so the index
maps the tag to the dereferenced commit in either order.  This is false:
the membership guard `possible_tag in tags` tests the ref *before* the
`refs/tags/` prefix is stripped, while stored keys have the prefix
stripped, so the guard never fires on real `ls-remote` refs and the
tag-object line overwrites the dereferenced commit.  Evaluated here at the
out-of-order input from the spec's own example: the index resolves `v1` to
`cafef00d` (the tag object), not `deadbeef` (the dereferenced commit). -/
theorem get_tags_via_git_remote_out_of_order_overwrites :
    get_tags_via_git_remote
        (some "deadbeef\trefs/tags/v1^\x7b\x7d\ncafef00d\trefs/tags/v1")
      = some [("v1", "cafef00d")] := by
  rfl

/-- C10.  When the `ls-remote` query succeeds but its output is empty (a
reachable repository with zero tags), `get_tags_via_git_remote` returns
`None`, never an empty index — the same result as a failed query, so the
caller cannot distinguish the two. -/
theorem get_tags_via_git_remote_empty_output_absent
    (env failedEnv : LsRemoteEnv)
    (h : list_remote_references env = some "")
    (h' : list_remote_references failedEnv = none) :
    get_tags_via_git_remote (list_remote_references env) = none ∧
      get_tags_via_git_remote (list_remote_references env)
        = get_tags_via_git_remote (list_remote_references failedEnv) := by
  rw [h, h']
  exact ⟨rfl, rfl⟩

/-- Witness for C10 at a concrete successful-but-tagless query and a
concrete failed query. -/
theorem get_tags_via_git_remote_empty_output_absent_witness :
    get_tags_via_git_remote (list_remote_references ⟨true, 0, "", ""⟩) = none ∧
      get_tags_via_git_remote (list_remote_references ⟨true, 0, "", ""⟩)
        = get_tags_via_git_remote (list_remote_references ⟨false, 0, "", ""⟩) :=
  get_tags_via_git_remote_empty_output_absent ⟨true, 0, "", ""⟩ ⟨false, 0, "", ""⟩ rfl rfl

/-! ### Theorems for claims C3 and C8 -/

/-- C3, counterexample.  The claim states that when the target directory
exists and is non-empty, a failed fetch makes `clone_remote_repo` return no
handle.  False: the fetch is run with `check=False` and its exit code is
never inspected, so here the fetch exits with code 1 (a failed fetch) and a
handle over the existing directory is still returned. -/
theorem clone_remote_repo_failed_fetch_still_returns_handle :
    (⟨"https://github.com/o/r", true, false, true, 1, "", "", true, 0, "", ""⟩ :
        CloneEnv).fetchExitCode ≠ 0 ∧
      clone_remote_repo
          ⟨"https://github.com/o/r", true, false, true, 1, "", "", true, 0, "", ""⟩
          "git_repos/github_com/o/r"
        = .returned (some "git_repos/github_com/o/r") := by
  exact ⟨by decide, rfl⟩

/-- C3, amended.  When the target directory exists and is non-empty,
`clone_remote_repo` runs `git fetch` inside it and never raises: it returns
a handle over the existing directory whenever the fetch process could be
spawned — regardless of the fetch's exit status, which is not checked —
and returns no handle only when spawning the fetch process fails with an
`OSError`. -/
theorem clone_remote_repo_update_path (env : CloneEnv) (dir : String)
    (hex : env.dirExists = true) (hne : env.dirEmpty = false) :
    clone_remote_repo env dir
      = .returned (if env.fetchSpawns then some dir else none) := by
  unfold clone_remote_repo
  rw [hex, hne]
  by_cases h : env.fetchSpawns <;> simp [h]

/-- Witness for the amended C3 at a concrete environment whose fetch
spawns (and, incidentally, fails with exit code 1). -/
theorem clone_remote_repo_update_path_witness :
    clone_remote_repo ⟨"u", true, false, true, 1, "out", "err", true, 0, "", ""⟩ "d"
      = .returned (if (⟨"u", true, false, true, 1, "out", "err", true, 0, "", ""⟩ :
          CloneEnv).fetchSpawns then some "d" else none) :=
  clone_remote_repo_update_path ⟨"u", true, false, true, 1, "out", "err", true, 0, "", ""⟩
    "d" rfl rfl

/-- C8, counterexample.  The claim states that for any two failing runs
with different URLs or different process outputs the raised message is
identical.  False across failure modes: a run whose clone subprocess fails
to spawn and a run whose clone subprocess exits non-zero (here also with
different URLs and outputs) raise `CloneError` with two different
messages. -/
theorem clone_remote_repo_two_failure_messages :
    clone_remote_repo ⟨"https://a/x/y", false, true, true, 0, "", "", false, 0, "", ""⟩ "d"
        = .raised "Failed to clone repository." ∧
      clone_remote_repo
          ⟨"https://b/p/q", false, true, true, 0, "", "", true, 128, "boom", "fatal"⟩ "d"
        = .raised "Failed to clone repository: the `git clone --filter=tree:0` command exited with non-zero return code." ∧
      ("Failed to clone repository." : String)
        ≠ "Failed to clone repository: the `git clone --filter=tree:0` command exited with non-zero return code." := by
  exact ⟨rfl, rfl, by decide⟩

/-- C8, amended.  When the target directory does not exist and the clone
fails, the raised `CloneError` message is one of two fixed string literals
determined solely by the failure mode — one for a spawn failure, one for a
non-zero exit — and is therefore independent of the clone URL and of the
subprocess's captured stdout/stderr: every environment with the same
failure mode produces the identical constant message, which contains no
part of the URL or of the captured output. -/
theorem clone_remote_repo_error_messages_fixed (env : CloneEnv) (dir : String)
    (hex : env.dirExists = false) :
    (env.cloneSpawns = false →
        clone_remote_repo env dir = .raised "Failed to clone repository.") ∧
      (env.cloneSpawns = true → env.cloneExitCode ≠ 0 →
        clone_remote_repo env dir
          = .raised "Failed to clone repository: the `git clone --filter=tree:0` command exited with non-zero return code.") := by
  constructor
  · intro hs
    unfold clone_remote_repo cloneFresh
    rw [hex, hs]
    simp
  · intro hs hc
    unfold clone_remote_repo cloneFresh
    rw [hex, hs]
    simp [hc]

/-- Witness for the amended C8 at two concrete failing environments
carrying URLs and captured outputs. -/
theorem clone_remote_repo_error_messages_fixed_witness :
    clone_remote_repo ⟨"https://h/o/n", false, true, true, 0, "", "", false, 0, "s", "e"⟩ "d"
        = .raised "Failed to clone repository." ∧
      clone_remote_repo ⟨"https://h/o/n", false, true, true, 0, "", "", true, 1, "s", "e"⟩ "d"
        = .raised "Failed to clone repository: the `git clone --filter=tree:0` command exited with non-zero return code." :=
  ⟨(clone_remote_repo_error_messages_fixed
      ⟨"https://h/o/n", false, true, true, 0, "", "", false, 0, "s", "e"⟩ "d" rfl).1 rfl,
    (clone_remote_repo_error_messages_fixed
      ⟨"https://h/o/n", false, true, true, 0, "", "", true, 1, "s", "e"⟩ "d" rfl).2 rfl
      (by decide)⟩

/-! ### Theorem for claim C7 -/

/-- C7.  When both a branch name and a commit digest are requested,
`check_out_repo_target` issues a checkout (of the digest, and of nothing
else) only if `origin/<branch>` is among the `origin/*` branches containing
that commit; otherwise it returns failure having issued no checkout at
all, leaving HEAD unchanged. -/
theorem check_out_repo_target_branch_and_digest (env : GitEnv)
    (branch_name digest : String) (offline_mode : Bool)
    (hb : branch_name ≠ "") (hd : digest ≠ "") :
    (("origin/" ++ branch_name)
        ∉ get_branches_containing_commit env digest "origin" →
      check_out_repo_target env branch_name digest offline_mode
        = ⟨false, env.head, []⟩) ∧
    ∀ r, r ∈ (check_out_repo_target env branch_name digest offline_mode).issued →
      ("origin/" ++ branch_name) ∈ get_branches_containing_commit env digest "origin"
        ∧ r = digest := by
  have hstep : check_out_repo_target env branch_name digest offline_mode
      = if ("origin/" ++ branch_name)
            ∈ get_branches_containing_commit env digest "origin" then
          match env.checkout digest with
          | none => ⟨false, env.head, [digest]⟩
          | some h1 => checkoutValidate digest h1 [digest]
        else ⟨false, env.head, []⟩ := by
    unfold check_out_repo_target
    simp [hb, hd]
  constructor
  · intro hnm
    rw [hstep, if_neg hnm]
  · intro r hr
    rw [hstep] at hr
    by_cases hm : ("origin/" ++ branch_name)
        ∈ get_branches_containing_commit env digest "origin"
    · refine ⟨hm, ?_⟩
      rw [if_pos hm] at hr
      rcases hco : env.checkout digest with _ | h1
      · rw [hco] at hr
        simpa using hr
      · rw [hco] at hr
        unfold checkoutValidate at hr
        by_cases h0 : h1 = "" <;> by_cases h2 : digest ≠ "" ∧ h1 ≠ digest <;>
          simp [h0, h2] at hr <;> simpa using hr
    · rw [if_neg hm] at hr
      simp at hr

/-! ### Helper lemmas on the string primitives -/

theorem toList_append (a b : String) : (a ++ b).toList = a.toList ++ b.toList := by
  cases a
  cases b
  rfl

theorem mk_toList (s : String) : String.mk s.toList = s := rfl

theorem dropWhile_eq_self_of_head (p : Char → Bool) (l : List Char)
    (h : ∀ x, l.head? = some x → p x = false) : l.dropWhile p = l := by
  cases l with
  | nil => rfl
  | cons x xs =>
    have := h x rfl
    simp [List.dropWhile_cons, this]

theorem head?_dropWhile (p : Char → Bool) (l : List Char) (x : Char)
    (h : (l.dropWhile p).head? = some x) : p x = false := by
  induction l with
  | nil => simp at h
  | cons y ys ih =>
    by_cases hy : p y
    · rw [List.dropWhile_cons_of_pos hy] at h
      exact ih h
    · rw [List.dropWhile_cons_of_neg hy] at h
      simp at h
      subst h
      simpa using hy

theorem rstripBy_append_eq (p : Char → Bool) (l : List Char) :
    ∃ t, l = rstripBy p l ++ t := by
  refine ⟨(l.reverse.takeWhile p).reverse, ?_⟩
  unfold rstripBy
  rw [← List.reverse_append, List.takeWhile_append_dropWhile, List.reverse_reverse]

theorem head?_of_append_eq (a t l : List Char) (h : l = a ++ t) :
    a.head? = none ∨ a.head? = l.head? := by
  cases a with
  | nil => exact Or.inl rfl
  | cons x xs => exact Or.inr (by simp [h])

theorem rstripBy_eq_self (p : Char → Bool) (l : List Char)
    (h : ∀ x, l.getLast? = some x → p x = false) : rstripBy p l = l := by
  unfold rstripBy
  rw [dropWhile_eq_self_of_head p l.reverse
    (fun x hx => h x (by rwa [List.head?_reverse] at hx)), List.reverse_reverse]

theorem head?_take_cases (n : Nat) (l : List Char) :
    (l.take n).head? = none ∨ (l.take n).head? = l.head? := by
  cases l with
  | nil => simp
  | cons x xs =>
    cases n with
    | zero => simp
    | succ m => simp

/-! ### Theorems for claim C6 -/

/-- C6, counterexample.  `clean_up_repo_path` is not idempotent: one
application strips the trailing `/` run and at most one `.git` suffix, so
on `"a.git.git"` the first application yields `"a.git"` and the second
yields `"a"`. -/
theorem clean_up_repo_path_not_idempotent :
    clean_up_repo_path (clean_up_repo_path "a.git.git")
      ≠ clean_up_repo_path "a.git.git" := by
  decide

theorem head?_none_or_trans (y z : List Char) (o : Option Char)
    (h1 : y.head? = none ∨ y.head? = z.head?)
    (h2 : z.head? = none ∨ z.head? = o) :
    y.head? = none ∨ y.head? = o := by
  rcases h1 with h | h
  · exact Or.inl h
  · rcases h2 with h2 | h2
    · exact Or.inl (h.trans h2)
    · exact Or.inr (h.trans h2)

/-- The head of `clean_up_repo_path x` is the head of the input with its
leading spaces removed (or absent): each cleaning stage only takes a
prefix of the previous one. -/
theorem head?_clean_up_repo_path (x : String) :
    (clean_up_repo_path x).toList.head? = none ∨
      (clean_up_repo_path x).toList.head?
        = (x.toList.dropWhile (· = ' ')).head? := by
  obtain ⟨t1, ht1⟩ := rstripBy_append_eq (· = ' ') (x.toList.dropWhile (· = ' '))
  obtain ⟨t2, ht2⟩ := rstripBy_append_eq (· = '/')
    (rstripBy (· = ' ') (x.toList.dropWhile (· = ' ')))
  have s1 := head?_of_append_eq _ t1 _ ht1
  have s2 := head?_of_append_eq _ t2 _ ht2
  have e1 : (clean_up_repo_path x).toList
      = (if endsL ".git".toList (rstripBy (· = '/') (rstripBy (· = ' ')
            (x.toList.dropWhile (· = ' ')))) = true
         then (rstripBy (· = '/') (rstripBy (· = ' ')
            (x.toList.dropWhile (· = ' ')))).take ((rstripBy (· = '/') (rstripBy (· = ' ')
            (x.toList.dropWhile (· = ' ')))).length - 4)
         else rstripBy (· = '/') (rstripBy (· = ' ') (x.toList.dropWhile (· = ' ')))) := rfl
  by_cases hg : endsL ".git".toList (rstripBy (· = '/') (rstripBy (· = ' ')
      (x.toList.dropWhile (· = ' ')))) = true
  · rw [e1, if_pos hg]
    exact head?_none_or_trans _ _ _ (head?_take_cases _ _)
      (head?_none_or_trans _ _ _ s2 s1)
  · rw [e1, if_neg hg]
    exact head?_none_or_trans _ _ _ s2 s1

/-- The head of `clean_up_repo_path x` is never a space. -/
theorem clean_up_repo_path_head_not_space (x : String) :
    ∀ c, (clean_up_repo_path x).toList.head? = some c → c ≠ ' ' := by
  intro c hc he
  subst he
  rcases head?_clean_up_repo_path x with hn | heq
  · rw [hc] at hn
    exact Option.noConfusion hn
  · rw [hc] at heq
    have := head?_dropWhile (· = ' ') x.toList ' ' heq.symm
    simp at this

/-- C6, amended.  `clean_up_repo_path` trims spaces, one trailing run of
`/`, and one trailing `.git`; it is idempotent exactly on inputs whose
cleaned form does not itself still end in a space, a `/`, or `.git`
(a second application strips further on inputs such as `"a.git.git"`,
`"a/.git"` or `"a .git"`). -/
theorem clean_up_repo_path_conditional_idempotent (x : String)
    (hsp : (clean_up_repo_path x).toList.getLast? ≠ some ' ')
    (hsl : (clean_up_repo_path x).toList.getLast? ≠ some '/')
    (hgit : endsL ".git".toList (clean_up_repo_path x).toList = false) :
    clean_up_repo_path (clean_up_repo_path x) = clean_up_repo_path x := by
  set y := clean_up_repo_path x with hy
  have hlstrip : y.toList.dropWhile (· = ' ') = y.toList :=
    dropWhile_eq_self_of_head _ _ (fun c hc => by
      have := clean_up_repo_path_head_not_space x c hc
      simpa using this)
  have hrstripSp : rstripBy (· = ' ') y.toList = y.toList :=
    rstripBy_eq_self _ _ (fun c hc => by
      have : c ≠ ' ' := fun he => hsp (by rw [← he]; exact hc)
      simpa using this)
  have hrstripSl : rstripBy (· = '/') y.toList = y.toList :=
    rstripBy_eq_self _ _ (fun c hc => by
      have : c ≠ '/' := fun he => hsl (by rw [← he]; exact hc)
      simpa using this)
  show clean_up_repo_path y = y
  have e1 : clean_up_repo_path y
      = String.mk (if endsL ".git".toList (rstripBy (· = '/') (rstripBy (· = ' ')
            (y.toList.dropWhile (· = ' ')))) = true
          then (rstripBy (· = '/') (rstripBy (· = ' ')
            (y.toList.dropWhile (· = ' ')))).take ((rstripBy (· = '/') (rstripBy (· = ' ')
            (y.toList.dropWhile (· = ' ')))).length - 4)
          else rstripBy (· = '/') (rstripBy (· = ' ') (y.toList.dropWhile (· = ' ')))) := rfl
  rw [e1, hlstrip, hrstripSp, hrstripSl, hgit]
  simp only [Bool.false_eq_true, if_false]
  exact mk_toList y

/-- Witness for the amended C6 at a concrete URL whose cleaned form is
stable. -/
theorem clean_up_repo_path_conditional_idempotent_witness :
    clean_up_repo_path (clean_up_repo_path "https://github.com/apache/maven.git ")
      = clean_up_repo_path "https://github.com/apache/maven.git " :=
  clean_up_repo_path_conditional_idempotent "https://github.com/apache/maven.git "
    (by decide) (by decide) (by decide)

/-! ### Helper lemmas for claim C9 -/

theorem splitChar_not_mem (c : Char) (l : List Char) (h : c ∉ l) :
    splitChar c l = [l] := by
  induction l with
  | nil => rfl
  | cons x xs ih =>
    have hx : ¬ x = c := fun he => h (by simp [he])
    have hxs : c ∉ xs := fun hm => h (List.mem_cons_of_mem x hm)
    rw [splitChar, if_neg hx, ih hxs]

theorem splitChar_append_sep (c : Char) (a b : List Char) (h : c ∉ a) :
    splitChar c (a ++ c :: b) = a :: splitChar c b := by
  induction a with
  | nil => simp [splitChar]
  | cons x xs ih =>
    have hx : ¬ x = c := fun he => h (by simp [he])
    have hxs : c ∉ xs := fun hm => h (List.mem_cons_of_mem x hm)
    rw [List.cons_append, splitChar, if_neg hx, ih hxs]

theorem splitCompCP_filter_join (cs : List String)
    (h : ∀ c ∈ cs, c ≠ "" ∧ c ≠ "." ∧ '/' ∉ c.toList) :
    ((splitChar '/' (joinSlash cs).toList).map String.mk).filter
        (fun c => c != "" && c != ".") = cs := by
  induction cs with
  | nil => rfl
  | cons x xs ih =>
    obtain ⟨hx1, hx2, hx3⟩ := h x (List.mem_cons_self x xs)
    have hfx : (x != "" && x != ".") = true := by
      simp [hx1, hx2]
    cases xs with
    | nil =>
      show ((splitChar '/' x.toList).map String.mk).filter _ = [x]
      rw [splitChar_not_mem '/' x.toList hx3]
      simp only [List.map_cons, List.map_nil, mk_toList]
      rw [List.filter_cons, if_pos hfx]
      rfl
    | cons y ys =>
      have hrest := ih (fun c hc => h c (List.mem_cons_of_mem x hc))
      have hjoin : (joinSlash (x :: y :: ys)).toList
          = x.toList ++ '/' :: (joinSlash (y :: ys)).toList := by
        show (x ++ "/" ++ joinSlash (y :: ys)).toList = _
        rw [toList_append, toList_append]
        show x.toList ++ ['/'] ++ _ = _
        simp
      rw [hjoin, splitChar_append_sep '/' x.toList _ hx3]
      simp only [List.map_cons, mk_toList]
      rw [List.filter_cons, if_pos hfx]
      rw [hrest]

theorem splitCompCP_renderAbs (cs : List String)
    (h : ∀ c ∈ cs, c ≠ "" ∧ c ≠ "." ∧ '/' ∉ c.toList) :
    splitCompCP (renderAbs cs) = cs := by
  unfold splitCompCP renderAbs
  rw [toList_append]
  show ((splitChar '/' ('/' :: (joinSlash cs).toList)).map String.mk).filter _ = cs
  rw [splitChar, if_pos rfl]
  simp only [List.map_cons]
  rw [List.filter_cons]
  show (if (String.mk [] != "" && String.mk [] != ".") = true then _ else _) = cs
  rw [if_neg (by decide)]
  exact splitCompCP_filter_join cs h

theorem renderAbs_inj (cs ds : List String)
    (hcs : ∀ c ∈ cs, c ≠ "" ∧ c ≠ "." ∧ '/' ∉ c.toList)
    (hds : ∀ c ∈ ds, c ≠ "" ∧ c ≠ "." ∧ '/' ∉ c.toList)
    (h : renderAbs cs = renderAbs ds) : cs = ds := by
  rw [← splitCompCP_renderAbs cs hcs, ← splitCompCP_renderAbs ds hds, h]

theorem head?_renderAbs (cs : List String) :
    (renderAbs cs).toList.head? = some '/' := by
  unfold renderAbs
  rw [toList_append]
  rfl

theorem commonLead_mem (a b : List String) : ∀ e ∈ commonLead a b, e ∈ b := by
  induction a generalizing b with
  | nil => intro e he; simp [commonLead] at he
  | cons x xs ih =>
    intro e he
    cases b with
    | nil => simp [commonLead] at he
    | cons y ys =>
      rw [commonLead] at he
      by_cases hxy : x = y
      · rw [if_pos hxy] at he
        rcases List.mem_cons.mp he with he1 | he2
        · exact he1 ▸ hxy ▸ List.mem_cons_self y ys
        · exact List.mem_cons_of_mem y (ih ys e he2)
      · rw [if_neg hxy] at he
        simp at he

theorem commonLead_eq_of_pre (a b : List String) (h : b <+: a) :
    commonLead a b = b := by
  induction b generalizing a with
  | nil => cases a <;> rfl
  | cons y ys ih =>
    cases a with
    | nil => exact absurd (List.prefix_nil.mp h) (by simp)
    | cons x xs =>
      rw [List.cons_prefix_cons] at h
      rw [commonLead, if_pos h.1.symm, ih xs h.2, h.1]

theorem pre_of_commonLead_eq (a b : List String) (h : commonLead a b = b) :
    b <+: a := by
  induction b generalizing a with
  | nil => exact List.nil_prefix
  | cons y ys ih =>
    cases a with
    | nil => simp [commonLead] at h
    | cons x xs =>
      rw [commonLead] at h
      by_cases hxy : x = y
      · rw [if_pos hxy] at h
        have := (List.cons.injEq _ _ _ _).mp h
        exact List.cons_prefix_cons.mpr ⟨hxy.symm, ih xs this.2⟩
      · rw [if_neg hxy] at h
        exact absurd h (by simp)

/-! ### Theorem for claim C9 -/

/-- C9.  `resolve_local_path` never raises (it is a total function into
strings), returns the empty string whenever canonicalization of the
boundary or of the joined target fails (missing path, symlink loop —
`realpath` returns `none`), and, when both canonicalize, returns the
canonical joined target exactly when the canonical boundary's components
are a path-component prefix of the canonical target's components, and the
empty string otherwise (boundary escape). -/
theorem resolve_local_path_spec (realpath : String → Option String)
    (start_dir local_path : String) :
    (realpath start_dir = none →
      resolve_local_path realpath start_dir local_path = "") ∧
    (∀ d, realpath start_dir = some d →
      realpath (pjoin start_dir local_path) = none →
      resolve_local_path realpath start_dir local_path = "") ∧
    (∀ d p ds ps, realpath start_dir = some d →
      realpath (pjoin start_dir local_path) = some p →
      CanonAbs ds d → CanonAbs ps p →
      resolve_local_path realpath start_dir local_path
        = if ds.isPrefixOf ps then p else "") := by
  refine ⟨?_, ?_, ?_⟩
  · intro h
    unfold resolve_local_path
    rw [h]
  · intro d h1 h2
    unfold resolve_local_path
    rw [h1, h2]
  · intro d p ds ps h1 h2 hd hp
    obtain ⟨hdr, hdg⟩ := hd
    obtain ⟨hpr, hpg⟩ := hp
    subst hdr hpr
    have hcp : commonpath2 (renderAbs ps) (renderAbs ds)
        = some (renderAbs (commonLead ps ds)) := by
      unfold commonpath2
      rw [if_pos (by rw [head?_renderAbs, head?_renderAbs]),
        if_pos (head?_renderAbs ps), splitCompCP_renderAbs ps hpg,
        splitCompCP_renderAbs ds hdg]
      rfl
    have e1 : resolve_local_path realpath start_dir local_path
        = if renderAbs (commonLead ps ds) ≠ renderAbs ds then ""
          else renderAbs ps := by
      unfold resolve_local_path
      rw [h1, h2]
      show (match commonpath2 (renderAbs ps) (renderAbs ds) with
        | none => ""
        | some c => if c ≠ renderAbs ds then "" else renderAbs ps) = _
      rw [hcp]
    rw [e1]
    by_cases hpre : ds.isPrefixOf ps = true
    · have hds : ds <+: ps := List.isPrefixOf_iff_prefix.mp hpre
      rw [commonLead_eq_of_pre ps ds hds, if_neg (by simp), if_pos hpre]
    · have hne : commonLead ps ds ≠ ds := fun he =>
        hpre (List.isPrefixOf_iff_prefix.mpr (pre_of_commonLead_eq ps ds he))
      have hgl : ∀ c ∈ commonLead ps ds, c ≠ "" ∧ c ≠ "." ∧ '/' ∉ c.toList :=
        fun c hc => hdg c (commonLead_mem ps ds c hc)
      rw [if_pos (fun he => hne (renderAbs_inj _ _ hgl hdg he)), if_neg hpre]

/-- Witness for C9: the spec's own example of a boundary escape,
`resolveWithin("/a", "b/../../etc")`, with a canonicalization oracle in
which `/a` exists and the joined path canonicalizes to `/etc`: the result
is absent. -/
theorem resolve_local_path_spec_witness :
    resolve_local_path
        (fun s => if s = "/a" then some "/a"
          else if s = "/a/b/../../etc" then some "/etc" else none)
        "/a" "b/../../etc" = "" := by
  have h := (resolve_local_path_spec
      (fun s => if s = "/a" then some "/a"
        else if s = "/a/b/../../etc" then some "/etc" else none)
      "/a" "b/../../etc").2.2 "/a" "/etc" ["a"] ["etc"]
    (by decide) (by decide) ⟨rfl, by decide⟩ ⟨rfl, by decide⟩
  rw [h]
  decide

/-! ### Provenance lemmas for the URL model -/

theorem splitFirstChar_eq_some (c : Char) (l a b : List Char)
    (h : splitFirstChar c l = some (a, b)) : l = a ++ c :: b ∧ c ∉ a := by
  induction l generalizing a b with
  | nil => simp [splitFirstChar] at h
  | cons x xs ih =>
    rw [splitFirstChar] at h
    by_cases hx : x = c
    · rw [if_pos hx] at h
      injection h with h3
      cases h3
      subst hx
      exact ⟨rfl, by simp⟩
    · rw [if_neg hx] at h
      rcases hsp : splitFirstChar c xs with _ | ⟨a', b'⟩
      · rw [hsp] at h
        simp at h
      · rw [hsp] at h
        simp only [Option.map_some'] at h
        injection h with h3
        have ha : a = x :: a' := (congrArg Prod.fst h3).symm
        have hb : b = b' := (congrArg Prod.snd h3).symm
        subst ha hb
        obtain ⟨he, hn⟩ := ih a' b hsp
        constructor
        · rw [List.cons_append, he]
        · intro hm
          rcases List.mem_cons.mp hm with hm1 | hm2
          · exact hx hm1.symm
          · exact hn hm2

theorem splitFirstChar_eq_none (c : Char) (l : List Char) :
    splitFirstChar c l = none ↔ c ∉ l := by
  induction l with
  | nil => simp [splitFirstChar]
  | cons x xs ih =>
    rw [splitFirstChar]
    by_cases hx : x = c
    · rw [if_pos hx]
      simp [hx]
    · rw [if_neg hx]
      simp [Option.map_eq_none', ih]
      intro
      exact fun he => hx he.symm

theorem mem_rstripBy (p : Char → Bool) (l : List Char) (x : Char)
    (h : x ∈ rstripBy p l) : x ∈ l := by
  unfold rstripBy at h
  rw [List.mem_reverse] at h
  exact List.mem_reverse.mp ((List.dropWhile_sublist p).mem h)

theorem mem_stripChar (c : Char) (l : List Char) (x : Char)
    (h : x ∈ stripChar c l) : x ∈ l := by
  unfold stripChar stripBy lstripBy at h
  exact (List.dropWhile_sublist _).mem (mem_rstripBy _ _ _ h)

theorem splitChar_mem (c : Char) (l p : List Char) (hp : p ∈ splitChar c l) :
    ∀ x ∈ p, x ∈ l ∧ x ≠ c := by
  induction l generalizing p with
  | nil =>
    simp [splitChar] at hp
    subst hp
    simp
  | cons y ys ih =>
    rw [splitChar] at hp
    by_cases hy : y = c
    · rw [if_pos hy] at hp
      rcases List.mem_cons.mp hp with hp1 | hp2
      · subst hp1
        simp
      · intro x hx
        obtain ⟨h1, h2⟩ := ih p hp2 x hx
        exact ⟨List.mem_cons_of_mem y h1, h2⟩
    · rw [if_neg hy] at hp
      rcases hsc : splitChar c ys with _ | ⟨hd, tl⟩
      · rw [hsc] at hp
        simp at hp
        subst hp
        intro x hx
        simp at hx
        exact ⟨by rw [hx]; exact List.mem_cons_self y ys, by rw [hx]; exact hy⟩
      · rw [hsc] at hp
        rcases List.mem_cons.mp hp with hp1 | hp2
        · subst hp1
          intro x hx
          rcases List.mem_cons.mp hx with hx1 | hx2
          · subst hx1
            exact ⟨List.mem_cons_self x ys, hy⟩
          · obtain ⟨h1, h2⟩ := ih hd (hsc ▸ List.mem_cons_self hd tl) x hx2
            exact ⟨List.mem_cons_of_mem y h1, h2⟩
        · intro x hx
          obtain ⟨h1, h2⟩ := ih p (hsc ▸ List.mem_cons_of_mem hd hp2) x hx
          exact ⟨List.mem_cons_of_mem y h1, h2⟩

theorem pyPartition_fst_mem (c : Char) (l : List Char) (x : Char)
    (h : x ∈ (pyPartition c l).1) : x ∈ l ∧ x ≠ c := by
  unfold pyPartition at h
  rcases hs : splitFirstChar c l with _ | ⟨a, b⟩
  · rw [hs] at h
    refine ⟨h, ?_⟩
    intro he
    subst he
    exact (splitFirstChar_eq_none x l).mp hs h
  · rw [hs] at h
    obtain ⟨he, hn⟩ := splitFirstChar_eq_some c l a b hs
    refine ⟨he ▸ List.mem_append_left _ h, ?_⟩
    intro hx
    subst hx
    exact hn h

theorem pyPartition_snd_mem (c : Char) (l : List Char) (x : Char)
    (h : x ∈ (pyPartition c l).2) : x ∈ l := by
  unfold pyPartition at h
  rcases hs : splitFirstChar c l with _ | ⟨a, b⟩
  · rw [hs] at h
    simp at h
  · rw [hs] at h
    obtain ⟨he, _⟩ := splitFirstChar_eq_some c l a b hs
    rw [he]
    exact List.mem_append_right a (List.mem_cons_of_mem c h)

theorem pyRpartition_fst_mem (c : Char) (l : List Char) (x : Char)
    (h : x ∈ (pyRpartition c l).1) : x ∈ l := by
  unfold pyRpartition at h
  rcases hs : splitFirstChar c l.reverse with _ | ⟨a, b⟩
  · rw [hs] at h
    simp at h
  · rw [hs] at h
    obtain ⟨he, _⟩ := splitFirstChar_eq_some c l.reverse a b hs
    rw [List.mem_reverse] at h
    have : x ∈ l.reverse := he ▸ List.mem_append_right a (List.mem_cons_of_mem c h)
    exact List.mem_reverse.mp this

theorem pyRpartition_snd_mem (c : Char) (l : List Char) (x : Char)
    (h : x ∈ (pyRpartition c l).2) : x ∈ l ∧ x ≠ c := by
  unfold pyRpartition at h
  rcases hs : splitFirstChar c l.reverse with _ | ⟨a, b⟩
  · rw [hs] at h
    refine ⟨h, ?_⟩
    intro he
    subst he
    exact (splitFirstChar_eq_none x l.reverse).mp hs (List.mem_reverse.mpr h)
  · rw [hs] at h
    obtain ⟨he, hn⟩ := splitFirstChar_eq_some c l.reverse a b hs
    rw [List.mem_reverse] at h
    refine ⟨List.mem_reverse.mp (he ▸ List.mem_append_left _ h), ?_⟩
    intro hx
    subst hx
    exact hn h

theorem extractScheme_snd_mem (l : List Char) (x : Char)
    (h : x ∈ (extractScheme l).2) : x ∈ l := by
  unfold extractScheme at h
  split at h
  · rename_i before after heq
    split at h
    · exact h
    · rename_i b bs
      split at h
      · obtain ⟨he, _⟩ := splitFirstChar_eq_some ':' l (b :: bs) after heq
        rw [he]
        exact List.mem_append_right _ (List.mem_cons_of_mem ':' h)
      · exact h
  · exact h

theorem splitNetloc_fst_mem (l : List Char) (x : Char)
    (h : x ∈ (splitNetloc l).1) : x ∈ l ∧ netlocDelim x = false := by
  unfold splitNetloc at h
  refine ⟨(List.takeWhile_sublist _).mem h, ?_⟩
  have := List.mem_takeWhile_imp h
  simpa using this

theorem splitNetloc_snd_mem (l : List Char) (x : Char)
    (h : x ∈ (splitNetloc l).2) : x ∈ l := by
  unfold splitNetloc at h
  exact (List.dropWhile_sublist _).mem h

theorem pySplitparams_fst_mem (l : List Char) (x : Char)
    (h : x ∈ (pySplitparams l).1) : x ∈ l := by
  unfold pySplitparams at h
  simp only [] at h
  by_cases h1 : ';' ∈ l
  · rw [if_pos h1] at h
    by_cases h2 : '/' ∈ l
    · rw [if_pos h2] at h
      rcases hs : splitFirstChar ';' (l.reverse.takeWhile (· ≠ '/')).reverse
        with _ | ⟨a, b⟩
      · rw [hs] at h
        exact h
      · rw [hs] at h
        rcases List.mem_append.mp h with hm | hm
        · rw [List.mem_reverse] at hm
          exact List.mem_reverse.mp ((List.dropWhile_sublist _).mem hm)
        · obtain ⟨he, _⟩ := splitFirstChar_eq_some ';' _ a b hs
          have : x ∈ (l.reverse.takeWhile (· ≠ '/')).reverse :=
            he ▸ List.mem_append_left _ hm
          rw [List.mem_reverse] at this
          exact List.mem_reverse.mp ((List.takeWhile_sublist _).mem this)
    · rw [if_neg h2] at h
      rcases hs : splitFirstChar ';' l with _ | ⟨a, b⟩
      · rw [hs] at h
        exact h
      · rw [hs] at h
        obtain ⟨he, _⟩ := splitFirstChar_eq_some ';' l a b hs
        exact he ▸ List.mem_append_left _ h
  · rw [if_neg h1] at h
    exact h

/-- Characters surviving the fragment, query and params splits come from
the input and are neither `#` nor `?`. -/
theorem pathPipe_chars (w : List Char) (c : Char)
    (hc : c ∈ (pySplitparams (pyPartition '?' (pyPartition '#' w).1).1).1) :
    c ∈ w ∧ c ≠ '#' ∧ c ≠ '?' := by
  have hq := pySplitparams_fst_mem _ c hc
  obtain ⟨hf, h2⟩ := pyPartition_fst_mem '?' _ c hq
  obtain ⟨hn, h3⟩ := pyPartition_fst_mem '#' _ c hf
  exact ⟨hn, h3, h2⟩

/-- Character provenance of a successful `pyUrlparse`: netloc characters
survived the authority split (no `/?#`) and the unsafe-byte removal; path
characters survived the fragment and query splits and the unsafe-byte
removal. -/
theorem pyUrlparse_chars (s : String) (r : PyParseResult)
    (h : pyUrlparse s = some r) :
    (∀ c ∈ r.netloc.toList, netlocDelim c = false ∧ urlUnsafe c = false) ∧
      (∀ c ∈ r.path.toList, c ≠ '#' ∧ c ≠ '?' ∧ urlUnsafe c = false) := by
  unfold pyUrlparse at h
  simp only [] at h
  have hu0 : ∀ c ∈ removeUnsafe s.toList, urlUnsafe c = false := by
    intro c hc
    unfold removeUnsafe at hc
    have := List.of_mem_filter hc
    simpa using this
  by_cases hT : (extractScheme (removeUnsafe s.toList)).2.take 2 = ['/', '/']
  · rw [if_pos hT] at h
    by_cases hbr : '[' ∈ (splitNetloc ((extractScheme (removeUnsafe s.toList)).2.drop 2)).1
        ∨ ']' ∈ (splitNetloc ((extractScheme (removeUnsafe s.toList)).2.drop 2)).1
    · rw [if_pos hbr] at h
      exact absurd h (by simp)
    · rw [if_neg hbr] at h
      have h' := Option.some.inj h
      subst h'
      constructor
      · intro c hc
        obtain ⟨h1, h2⟩ := splitNetloc_fst_mem _ c hc
        exact ⟨h2, hu0 c (extractScheme_snd_mem _ c ((List.drop_sublist _ _).mem h1))⟩
      · intro c hc
        obtain ⟨hw, h3, h2⟩ := pathPipe_chars _ c hc
        have hm := splitNetloc_snd_mem _ c hw
        exact ⟨h3, h2, hu0 c (extractScheme_snd_mem _ c ((List.drop_sublist _ _).mem hm))⟩
  · rw [if_neg hT] at h
    by_cases hbr : '[' ∈ (([] : List Char), (extractScheme (removeUnsafe s.toList)).2).1
        ∨ ']' ∈ (([] : List Char), (extractScheme (removeUnsafe s.toList)).2).1
    · exact absurd hbr (by simp)
    · rw [if_neg hbr] at h
      have h' := Option.some.inj h
      subst h'
      constructor
      · intro c hc
        simp at hc
      · intro c hc
        obtain ⟨hw, h3, h2⟩ := pathPipe_chars _ c hc
        exact ⟨h3, h2, hu0 c (extractScheme_snd_mem _ c hw)⟩

/-- Character provenance lifted through `clean_url`. -/
theorem clean_url_chars (s : String) (r : PyParseResult)
    (h : clean_url s = some r) :
    (∀ c ∈ r.netloc.toList, netlocDelim c = false ∧ urlUnsafe c = false) ∧
      (∀ c ∈ r.path.toList, c ≠ '#' ∧ c ≠ '?' ∧ urlUnsafe c = false) := by
  unfold clean_url at h
  rcases hs : markerSearch s.toList with _ | pre
  · rw [hs] at h
    exact absurd h (by simp)
  · rw [hs] at h
    exact pyUrlparse_chars _ r h

theorem netlocDelim_false (c : Char) (h : netlocDelim c = false) :
    c ≠ '/' ∧ c ≠ '?' ∧ c ≠ '#' := by
  refine ⟨?_, ?_, ?_⟩ <;> intro he <;> subst he <;> simp [netlocDelim] at h

/-- Inversion of the common two-segment tail of the three dialect
branches: a successful result carries the first two `/`-separated segments
of the stripped path. -/
theorem branch_inv (X : List Char) (H : String) (r : PyParseResult)
    (h : (match splitChar '/' (stripChar '/' X) with
          | p0 :: p1 :: _ =>
            some (⟨"https", H, String.mk (p0 ++ '/' :: p1), "", "", ""⟩ : PyParseResult)
          | _ => none) = some r) :
    ∃ p0 p1, r = ⟨"https", H, String.mk (p0 ++ '/' :: p1), "", "", ""⟩ ∧
      (∀ c ∈ p0, c ∈ X ∧ c ≠ '/') ∧ (∀ c ∈ p1, c ∈ X ∧ c ≠ '/') := by
  rcases hsc : splitChar '/' (stripChar '/' X) with _ | ⟨p0, _ | ⟨p1, rest⟩⟩
  · rw [hsc] at h
    exact absurd h (by simp)
  · rw [hsc] at h
    exact absurd h (by simp)
  · rw [hsc] at h
    have h' := Option.some.inj h
    refine ⟨p0, p1, h'.symm, ?_, ?_⟩
    · intro c hc
      obtain ⟨h1, h2⟩ := splitChar_mem '/' _ p0
        (by rw [hsc]; exact List.mem_cons_self _ _) c hc
      exact ⟨mem_stripChar '/' X c h1, h2⟩
    · intro c hc
      obtain ⟨h1, h2⟩ := splitChar_mem '/' _ p1
        (by rw [hsc]; exact List.mem_cons_of_mem p0 (List.mem_cons_self _ _)) c hc
      exact ⟨mem_stripChar '/' X c h1, h2⟩

/-- Main inversion of `parse_remote_url`: a successful parse is either the
(truthy) all-empty `ParseResult` of the fall-through branch, or has scheme
`https`, a host drawn from the allow-list whose characters survived the
relevant splits, and a path made of exactly two segments free of `/?#` and
unsafe bytes. -/
theorem parse_remote_url_inv (url : String) (allowed : List String)
    (r : PyParseResult) (h : parse_remote_url url allowed = some r) :
    r = emptyParseResult ∨
      ∃ host p0 p1,
        r = ⟨"https", String.mk host, String.mk (p0 ++ '/' :: p1), "", "", ""⟩ ∧
          String.mk host ∈ allowed ∧ (∀ c ∈ host, hostOkC c) ∧
          (∀ c ∈ p0, segOkC c) ∧ (∀ c ∈ p1, segOkC c) := by
  unfold parse_remote_url at h
  split at h
  · exact absurd h (by simp)
  rename_i pu hcu
  obtain ⟨hnet, hpath⟩ := clean_url_chars url pu hcu
  by_cases hb1 : pu.scheme ∈ urlSchemes
  · rw [if_pos hb1] at h
    by_cases hb2 : pu.netloc ∈ allowed
    · rw [if_pos hb2] at h
      obtain ⟨p0, p1, hr, hm0, hm1⟩ := branch_inv _ _ _ h
      right
      refine ⟨pu.netloc.toList, p0, p1, by rw [hr, mk_toList], by rw [mk_toList]; exact hb2,
        ?_, ?_, ?_⟩
      · intro c hc
        obtain ⟨h1, h2⟩ := hnet c hc
        obtain ⟨_, hq, hh⟩ := netlocDelim_false c h1
        exact ⟨hq, hh, h2⟩
      · intro c hc
        obtain ⟨h1, h2⟩ := hm0 c hc
        obtain ⟨h3, h4, h5⟩ := hpath c h1
        exact ⟨h2, h4, h3, h5⟩
      · intro c hc
        obtain ⟨h1, h2⟩ := hm1 c hc
        obtain ⟨h3, h4, h5⟩ := hpath c h1
        exact ⟨h2, h4, h3, h5⟩
    · rw [if_neg hb2] at h
      exact absurd h (by simp)
  · rw [if_neg hb1] at h
    by_cases hb3 : pu.scheme ∈ sshSchemes
    · rw [if_pos hb3] at h
      simp only [] at h
      by_cases hb4 : (pyRpartition '@' (pyPartition ':' pu.netloc.toList).1).1 ≠ []
          ∧ String.mk (pyRpartition '@' (pyPartition ':' pu.netloc.toList).1).2 ∈ allowed
      · rw [if_pos hb4] at h
        obtain ⟨p0, p1, hr, hm0, hm1⟩ := branch_inv _ _ _ h
        right
        have hhost : ∀ c ∈ (pyRpartition '@' (pyPartition ':' pu.netloc.toList).1).2,
            hostOkC c := by
          intro c hc
          obtain ⟨h1, _⟩ := pyRpartition_snd_mem '@' _ c hc
          obtain ⟨h2, _⟩ := pyPartition_fst_mem ':' _ c h1
          obtain ⟨h3, h4⟩ := hnet c h2
          obtain ⟨_, hq, hh⟩ := netlocDelim_false c h3
          exact ⟨hq, hh, h4⟩
        have hseg : ∀ c ∈ (if !isDecimalL (pyPartition ':' pu.netloc.toList).2 then
              (pyPartition ':' pu.netloc.toList).2 ++ '/' :: stripChar '/' pu.path.toList
            else pu.path.toList), c ≠ '/' → segOkC c := by
          intro c hc h2
          split at hc
          · rcases List.mem_append.mp hc with hm | hm
            · obtain ⟨h3, h4⟩ := hnet c (pyPartition_snd_mem ':' _ c hm)
              obtain ⟨_, hq, hh⟩ := netlocDelim_false c h3
              exact ⟨h2, hq, hh, h4⟩
            · rcases List.mem_cons.mp hm with hm1 | hm2
              · exact absurd hm1 h2
              · obtain ⟨h3, h4, h5⟩ := hpath c (mem_stripChar '/' _ c hm2)
                exact ⟨h2, h4, h3, h5⟩
          · obtain ⟨h3, h4, h5⟩ := hpath c hc
            exact ⟨h2, h4, h3, h5⟩
        refine ⟨(pyRpartition '@' (pyPartition ':' pu.netloc.toList).1).2, p0, p1,
          hr, hb4.2, hhost, ?_, ?_⟩
        · intro c hc
          obtain ⟨h1, h2⟩ := hm0 c hc
          exact hseg c h1 h2
        · intro c hc
          obtain ⟨h1, h2⟩ := hm1 c hc
          exact hseg c h1 h2
      · rw [if_neg hb4] at h
        exact absurd h (by simp)
    · rw [if_neg hb3] at h
      by_cases hb5 : pu.scheme = ""
      · rw [if_pos hb5] at h
        simp only [] at h
        by_cases hb6 : (pyPartition ':' pu.path.toList).1 ≠ []
            ∧ (pyPartition ':' pu.path.toList).2 ≠ []
        · rw [if_pos hb6] at h
          by_cases hb7 : (pyRpartition '@' (pyPartition ':' pu.path.toList).1).1 ≠ []
              ∧ String.mk (pyRpartition '@' (pyPartition ':' pu.path.toList).1).2 ∈ allowed
          · rw [if_pos hb7] at h
            obtain ⟨p0, p1, hr, hm0, hm1⟩ := branch_inv _ _ _ h
            right
            have hhost : ∀ c ∈ (pyRpartition '@' (pyPartition ':' pu.path.toList).1).2,
                hostOkC c := by
              intro c hc
              obtain ⟨h1, _⟩ := pyRpartition_snd_mem '@' _ c hc
              obtain ⟨h2, _⟩ := pyPartition_fst_mem ':' _ c h1
              obtain ⟨h3, h4, h5⟩ := hpath c h2
              exact ⟨h4, h3, h5⟩
            have hsub : ∀ c, c ∈ (if !isDecimalL
                  (pyPartition '/' (stripChar '/' (pyPartition ':' pu.path.toList).2)).1
                then (pyPartition ':' pu.path.toList).2
                else (pyPartition '/' (stripChar '/' (pyPartition ':' pu.path.toList).2)).2) →
                c ∈ pu.path.toList := by
              intro c hc
              split at hc
              · exact pyPartition_snd_mem ':' _ c hc
              · exact pyPartition_snd_mem ':' _ c
                  (mem_stripChar '/' _ c (pyPartition_snd_mem '/' _ c hc))
            refine ⟨(pyRpartition '@' (pyPartition ':' pu.path.toList).1).2, p0, p1,
              hr, hb7.2, hhost, ?_, ?_⟩
            · intro c hc
              obtain ⟨h1, h2⟩ := hm0 c hc
              obtain ⟨h3, h4, h5⟩ := hpath c (hsub c h1)
              exact ⟨h2, h4, h3, h5⟩
            · intro c hc
              obtain ⟨h1, h2⟩ := hm1 c hc
              obtain ⟨h3, h4, h5⟩ := hpath c (hsub c h1)
              exact ⟨h2, h4, h3, h5⟩
          · rw [if_neg hb7] at h
            exact absurd h (by simp)
        · rw [if_neg hb6] at h
          exact absurd h (by simp)
      · rw [if_neg hb5] at h
        left
        exact (Option.some.inj h).symm

/-! ### Theorems for claim C4 -/

/-- C4, amended.  `parse_remote_url` never raises (it is a total function
into `Option`), and whenever it returns a result that is not the all-empty
`ParseResult`, the host is in the allow-list and the path consists of
exactly two `/`-separated segments — equivalently, it returns absent (or,
for an unrecognized scheme after a marker, the all-empty but truthy
`ParseResult` rather than `None`) whenever the host is not allow-listed or
fewer than two path segments are found. -/
theorem parse_remote_url_success_shape (url : String) (allowed : List String)
    (r : PyParseResult) (h : parse_remote_url url allowed = some r) :
    r = emptyParseResult ∨
      (r.scheme = "https" ∧ r.netloc ∈ allowed ∧
        ∃ o n, r.path = String.mk (o ++ '/' :: n) ∧ '/' ∉ o ∧ '/' ∉ n) := by
  rcases parse_remote_url_inv url allowed r h with he | ⟨host, p0, p1, hr, hal, _, h0, h1⟩
  · exact Or.inl he
  · right
    subst hr
    exact ⟨rfl, hal, p0, p1, rfl,
      fun hm => ((h0 '/' hm).1 rfl).elim, fun hm => ((h1 '/' hm).1 rfl).elim⟩

/-- Witness for the amended C4 at a concrete URL on the allow-list. -/
theorem parse_remote_url_success_shape_witness :
    (⟨"https", "github.com", "apache/maven", "", "", ""⟩ : PyParseResult)
        = emptyParseResult ∨
      ((⟨"https", "github.com", "apache/maven", "", "", ""⟩ : PyParseResult).scheme
          = "https" ∧
        (⟨"https", "github.com", "apache/maven", "", "", ""⟩ : PyParseResult).netloc
          ∈ ["github.com"] ∧
        ∃ o n, (⟨"https", "github.com", "apache/maven", "", "", ""⟩ : PyParseResult).path
            = String.mk (o ++ '/' :: n) ∧ '/' ∉ o ∧ '/' ∉ n) :=
  parse_remote_url_success_shape "https://github.com/apache/maven" ["github.com"]
    ⟨"https", "github.com", "apache/maven", "", "", ""⟩ (by decide)

/-! ### Helper lemmas for the round-trip claim C5 -/

theorem toList_mk (l : List Char) : (String.mk l).toList = l := rfl

theorem mem_of_head?_eq (l : List Char) (x : Char) (h : l.head? = some x) : x ∈ l := by
  cases l with
  | nil => simp at h
  | cons y ys =>
    simp at h
    rw [h]
    exact List.mem_cons_self x ys

theorem mem_of_getLast?_eq (l : List Char) (x : Char) (h : l.getLast? = some x) :
    x ∈ l := by
  rw [← List.head?_reverse] at h
  exact List.mem_reverse.mp (mem_of_head?_eq l.reverse x h)

theorem getLast?_append_right (a n : List Char) (h : n ≠ []) :
    (a ++ n).getLast? = n.getLast? := by
  rw [← List.head?_reverse, List.reverse_append, ← List.head?_reverse n]
  cases hn : n.reverse with
  | nil => exact absurd (by simpa using congrArg List.reverse hn) h
  | cons y ys => simp

theorem isPrefL_iff (p l : List Char) : isPrefL p l = true ↔ ∃ t, l = p ++ t := by
  induction p generalizing l with
  | nil => simp [isPrefL]
  | cons x xs ih =>
    cases l with
    | nil =>
      simp [isPrefL]
    | cons y ys =>
      rw [isPrefL]
      simp only [Bool.and_eq_true, decide_eq_true_eq]
      constructor
      · rintro ⟨he, hp⟩
        obtain ⟨t, ht⟩ := (ih ys).mp hp
        exact ⟨t, by rw [ht, he, List.cons_append]⟩
      · rintro ⟨t, ht⟩
        rw [List.cons_append] at ht
        injection ht with h1 h2
        exact ⟨h1.symm, (ih ys).mpr ⟨t, h2⟩⟩

theorem endsL_iff (pat l : List Char) : endsL pat l = true ↔ ∃ t, l = t ++ pat := by
  unfold endsL
  rw [isPrefL_iff]
  constructor
  · rintro ⟨t, ht⟩
    refine ⟨t.reverse, ?_⟩
    have := congrArg List.reverse ht
    simpa using this
  · rintro ⟨t, ht⟩
    exact ⟨t.reverse, by rw [ht]; simp⟩

theorem append_eq_of_suffix_le (l u v t pat : List Char)
    (h1 : l = u ++ v) (h2 : l = t ++ pat) (hle : pat.length ≤ v.length) :
    ∃ w, v = w ++ pat := by
  have hlen : u.length ≤ t.length := by
    have e1 : u.length + v.length = t.length + pat.length := by
      rw [← List.length_append, ← h1, h2, List.length_append]
    omega
  refine ⟨t.drop u.length, ?_⟩
  have hv : v = (u ++ v).drop u.length := by rw [List.drop_left]
  rw [hv, ← h1, h2, List.drop_append_eq_append_drop,
    show u.length - t.length = 0 by omega, List.drop_zero]

theorem endsL_append_cases (pat a : List Char) (c : Char) (b : List Char)
    (h : endsL pat (a ++ c :: b) = true) : c ∈ pat ∨ endsL pat b = true := by
  obtain ⟨t, ht⟩ := (endsL_iff pat _).mp h
  by_cases hle : pat.length ≤ b.length
  · right
    obtain ⟨w, hw⟩ := append_eq_of_suffix_le (a ++ c :: b) (a ++ [c]) b t pat
      (by simp) ht hle
    exact (endsL_iff pat b).mpr ⟨w, hw⟩
  · left
    have hle2 : (c :: b).length ≤ pat.length := by
      simp only [List.length_cons]
      omega
    obtain ⟨w, hw⟩ := append_eq_of_suffix_le (a ++ c :: b) t pat a (c :: b)
      ht rfl hle2
    rw [hw]
    exact List.mem_append_right w (List.mem_cons_self c b)

theorem takeWhile_append_stop (p : Char → Bool) (a : List Char) (c : Char)
    (b : List Char) (ha : ∀ x ∈ a, p x = true) (hc : p c = false) :
    (a ++ c :: b).takeWhile p = a := by
  rw [List.takeWhile_append_of_pos ha,
    List.takeWhile_cons_of_neg (by simp [hc]), List.append_nil]

theorem dropWhile_append_stop (p : Char → Bool) (a : List Char) (c : Char)
    (b : List Char) (ha : ∀ x ∈ a, p x = true) (hc : p c = false) :
    (a ++ c :: b).dropWhile p = c :: b := by
  rw [List.dropWhile_append_of_pos ha,
    List.dropWhile_cons_of_neg (by simp [hc])]

theorem replaceAllGo_nil_pat (l : List Char) : ∀ f, l.length ≤ f →
    replaceAllGo [] f l = l := by
  induction l with
  | nil => intro f _; cases f <;> rfl
  | cons x xs ih =>
    intro f hf
    cases f with
    | zero => simp at hf
    | succ f' =>
      show (if ([] : List Char) ≠ [] ∧ isPrefL [] (x :: xs) then
          replaceAllGo [] f' ((x :: xs).drop (List.length []))
        else x :: replaceAllGo [] f' xs) = x :: xs
      rw [if_neg (by simp)]
      rw [ih f' (by simp at hf; omega)]

theorem replaceAll_nil (l : List Char) : replaceAll [] l = l :=
  replaceAllGo_nil_pat l l.length (Nat.le_refl _)

theorem pyPartition_not_mem (c : Char) (l : List Char) (h : c ∉ l) :
    pyPartition c l = (l, []) := by
  unfold pyPartition
  rw [(splitFirstChar_eq_none c l).mpr h]

theorem splitChar_two_seg (o n : List Char) (ho : '/' ∉ o) (hn : '/' ∉ n) :
    splitChar '/' (o ++ '/' :: n) = [o, n] := by
  rw [splitChar_append_sep '/' o n ho, splitChar_not_mem '/' n hn]

theorem pySplitparams_last_seg (a n : List Char) (hsemi : ';' ∉ n)
    (hslash : '/' ∉ n) :
    pySplitparams (a ++ '/' :: n) = (a ++ '/' :: n, []) := by
  unfold pySplitparams
  simp only []
  by_cases h1 : ';' ∈ a ++ '/' :: n
  · rw [if_pos h1,
      if_pos (List.mem_append_right a (List.mem_cons_self '/' n))]
    have hrev : (a ++ '/' :: n).reverse = n.reverse ++ '/' :: a.reverse := by
      simp
    rw [hrev, takeWhile_append_stop _ n.reverse '/' a.reverse
      (fun x hx => by
        have hxn : x ∈ n := List.mem_reverse.mp hx
        simp only [decide_eq_true_eq]
        exact fun he => hslash (he ▸ hxn))
      (by simp), List.reverse_reverse,
      (splitFirstChar_eq_none ';' n).mpr hsemi]
  · rw [if_neg h1]

theorem rstripChar_two_seg (o n : List Char) (hn : n ≠ []) (hnl : '/' ∉ n) :
    rstripBy (· = '/') (o ++ '/' :: n) = o ++ '/' :: n := by
  apply rstripBy_eq_self
  intro x hx
  have he : (o ++ '/' :: n).getLast? = n.getLast? := by
    rw [show o ++ '/' :: n = (o ++ ['/']) ++ n by simp,
      getLast?_append_right _ n hn]
  rw [he] at hx
  have := mem_of_getLast?_eq n x hx
  simp only [decide_eq_false_iff_not]
  exact fun heq => hnl (heq ▸ this)

theorem toList_empty : ("" : String).toList = ([] : List Char) := rfl

theorem toList_https : ("https" : String).toList = ['h', 't', 't', 'p', 's'] := rfl

/-- Reconstruction of a two-segment result with a non-empty netloc:
`urlunparse` produces `https://host/owner/name`. -/
theorem urlunparse_host_shape (host : List Char) (oh : Char) (ot n : List Char)
    (hhost : host ≠ []) (hoh : oh ≠ '/') :
    urlunparse ⟨"https", String.mk host, String.mk ((oh :: ot) ++ '/' :: n), "", "", ""⟩
      = String.mk ((['h', 't', 't', 'p', 's', ':', '/', '/']
          ++ (host ++ '/' :: (oh :: ot))) ++ '/' :: n) := by
  unfold urlunparse
  simp only [toList_mk, toList_empty, toList_https]
  simp only [ne_eq]
  simp
  rw [if_pos (Or.inl hhost), if_neg hoh]

/-- Reconstruction of a two-segment result with an empty netloc:
`urlunparse` produces `https:owner/name` (no `//`, as CPython omits the
authority marker for an empty netloc). -/
theorem urlunparse_nohost_shape (oh : Char) (ot n : List Char) (hoh : oh ≠ '/') :
    urlunparse ⟨"https", String.mk [], String.mk ((oh :: ot) ++ '/' :: n), "", "", ""⟩
      = String.mk ((['h', 't', 't', 'p', 's', ':'] ++ (oh :: ot)) ++ '/' :: n) := by
  unfold urlunparse
  simp only [toList_mk, toList_empty, toList_https]
  simp only [ne_eq]
  simp
  rw [if_neg ?hcond]
  case hcond =>
    rintro ⟨h2, _⟩
    exact hoh h2

/-- The reconstructed URL is a fixed point of `clean_up_repo_path` when the
name segment is non-empty, slash-free, does not end in a space and does
not end in `.git`. -/
theorem clean_up_repo_path_recon (a n : List Char) (ha : a.head? = some 'h')
    (hn : n ≠ []) (hnsp : n.getLast? ≠ some ' ') (hnsl : '/' ∉ n)
    (hgit : endsL ".git".toList n = false) :
    clean_up_repo_path (String.mk (a ++ '/' :: n)) = String.mk (a ++ '/' :: n) := by
  have hhead : (a ++ '/' :: n).head? = some 'h' := by
    cases a with
    | nil => simp at ha
    | cons x xs =>
      simp at ha ⊢
      exact ha
  have hlast : (a ++ '/' :: n).getLast? = n.getLast? := by
    rw [show a ++ '/' :: n = (a ++ ['/']) ++ n by simp, getLast?_append_right _ n hn]
  have hd : (a ++ '/' :: n).dropWhile (· = ' ') = a ++ '/' :: n := by
    apply dropWhile_eq_self_of_head
    intro x hx
    rw [hhead] at hx
    have hx2 : x = 'h' := by
      injection hx with h2
      exact h2.symm
    subst hx2
    decide
  have hr1 : rstripBy (· = ' ') (a ++ '/' :: n) = a ++ '/' :: n := by
    apply rstripBy_eq_self
    intro x hx
    rw [hlast] at hx
    have hxs : x ≠ ' ' := fun he => hnsp (he ▸ hx)
    simpa using hxs
  have hr2 : rstripBy (· = '/') (a ++ '/' :: n) = a ++ '/' :: n := by
    apply rstripBy_eq_self
    intro x hx
    rw [hlast] at hx
    have hxn := mem_of_getLast?_eq n x hx
    have hxs : x ≠ '/' := fun he => hnsl (he ▸ hxn)
    simpa using hxs
  have hg : endsL ".git".toList (a ++ '/' :: n) = false := by
    cases hcv : endsL ".git".toList (a ++ '/' :: n) with
    | false => rfl
    | true =>
      rcases endsL_append_cases _ a '/' n hcv with hm | hm
      · exact absurd hm (by decide)
      · rw [hm] at hgit
        exact absurd hgit (by simp)
  have e1 : clean_up_repo_path (String.mk (a ++ '/' :: n))
      = String.mk (if endsL ".git".toList (rstripBy (· = '/') (rstripBy (· = ' ')
            ((a ++ '/' :: n).dropWhile (· = ' ')))) = true
          then (rstripBy (· = '/') (rstripBy (· = ' ')
            ((a ++ '/' :: n).dropWhile (· = ' ')))).take
              ((rstripBy (· = '/') (rstripBy (· = ' ')
            ((a ++ '/' :: n).dropWhile (· = ' ')))).length - 4)
          else rstripBy (· = '/') (rstripBy (· = ' ')
            ((a ++ '/' :: n).dropWhile (· = ' ')))) := rfl
  rw [e1, hd, hr1, hr2, hg]
  simp

/-- Evaluation of `parse_remote_url` through its URL-scheme dialect branch,
given the parse of the cleaned URL. -/
theorem parse_remote_url_url_branch (s : String) (allowed : List String)
    (pu : PyParseResult) (hcu : clean_url s = some pu)
    (hsch : pu.scheme = "https") (hnet : pu.netloc ∈ allowed) :
    parse_remote_url s allowed
      = match splitChar '/' (stripChar '/' pu.path.toList) with
        | p0 :: p1 :: _ =>
          some ⟨"https", pu.netloc, String.mk (p0 ++ '/' :: p1), "", "", ""⟩
        | _ => none := by
  unfold parse_remote_url
  simp only [hcu]
  rw [if_pos (show pu.scheme ∈ urlSchemes by rw [hsch]; decide), if_pos hnet]

/-- Re-normalizing the reconstruction `https://host/owner/name` recovers
the original parse result (non-empty host case). -/
theorem parse_recon_host (allowed : List String) (host : List Char) (oh : Char)
    (ot n : List Char)
    (hal : String.mk host ∈ allowed)
    (hhostok : ∀ c ∈ host, hostOkC c)
    (hsl : '/' ∉ host) (hbl : '[' ∉ host) (hbr : ']' ∉ host)
    (hseg0 : ∀ c ∈ oh :: ot, segOkC c)
    (hseg1 : ∀ c ∈ n, segOkC c)
    (hn : n ≠ []) (hsemi : ';' ∉ n) :
    parse_remote_url
        (String.mk ((['h', 't', 't', 'p', 's', ':', '/', '/']
          ++ (host ++ '/' :: (oh :: ot))) ++ '/' :: n)) allowed
      = some ⟨"https", String.mk host, String.mk ((oh :: ot) ++ '/' :: n), "", "", ""⟩ := by
  have hnsl : '/' ∉ n := fun hm => (hseg1 '/' hm).1 rfl
  have hosl : '/' ∉ oh :: ot := fun hm => (hseg0 '/' hm).1 rfl
  have hoh : oh ≠ '/' := fun he => hosl (he ▸ List.mem_cons_self oh ot)
  have hms : markerSearch ((['h', 't', 't', 'p', 's', ':', '/', '/']
      ++ (host ++ '/' :: (oh :: ot))) ++ '/' :: n) = some [] := rfl
  have hru : removeUnsafe ((['h', 't', 't', 'p', 's', ':', '/', '/']
      ++ (host ++ '/' :: (oh :: ot))) ++ '/' :: n)
      = (['h', 't', 't', 'p', 's', ':', '/', '/']
        ++ (host ++ '/' :: (oh :: ot))) ++ '/' :: n := by
    apply List.filter_eq_self.mpr
    intro c hc
    have hcu : urlUnsafe c = false := by
      rcases List.mem_append.mp hc with hc | hc
      · rcases List.mem_append.mp hc with hc | hc
        · exact (show ∀ x ∈ (['h', 't', 't', 'p', 's', ':', '/', '/'] : List Char),
            urlUnsafe x = false by decide) c hc
        · rcases List.mem_append.mp hc with hc | hc
          · exact (hhostok c hc).2.2
          · rcases List.mem_cons.mp hc with hc | hc
            · subst hc; decide
            · exact (hseg0 c hc).2.2.2
      · rcases List.mem_cons.mp hc with hc | hc
        · subst hc; decide
        · exact (hseg1 c hc).2.2.2
    simp [hcu]
  have hsn : splitNetloc (host ++ '/' :: ((oh :: ot) ++ '/' :: n))
      = (host, '/' :: ((oh :: ot) ++ '/' :: n)) := by
    unfold splitNetloc
    rw [takeWhile_append_stop _ host '/' _
        (fun x hx => by
          obtain ⟨h1, h2, h3⟩ := hhostok x hx
          have hx4 : x ≠ '/' := fun he => hsl (he ▸ hx)
          simp [netlocDelim, hx4, h1, h2])
        (by decide),
      dropWhile_append_stop _ host '/' _
        (fun x hx => by
          obtain ⟨h1, h2, h3⟩ := hhostok x hx
          have hx4 : x ≠ '/' := fun he => hsl (he ▸ hx)
          simp [netlocDelim, hx4, h1, h2])
        (by decide)]
  have hhash : ('#' : Char) ∉ '/' :: ((oh :: ot) ++ '/' :: n) := by
    intro hm
    rcases List.mem_cons.mp hm with hm | hm
    · exact absurd hm (by decide)
    · rcases List.mem_append.mp hm with hm | hm
      · exact (hseg0 '#' hm).2.2.1 rfl
      · rcases List.mem_cons.mp hm with hm | hm
        · exact absurd hm (by decide)
        · exact (hseg1 '#' hm).2.2.1 rfl
  have hquest : ('?' : Char) ∉ '/' :: ((oh :: ot) ++ '/' :: n) := by
    intro hm
    rcases List.mem_cons.mp hm with hm | hm
    · exact absurd hm (by decide)
    · rcases List.mem_append.mp hm with hm | hm
      · exact (hseg0 '?' hm).2.1 rfl
      · rcases List.mem_cons.mp hm with hm | hm
        · exact absurd hm (by decide)
        · exact (hseg1 '?' hm).2.1 rfl
  have hpu : pyUrlparse (String.mk ((['h', 't', 't', 'p', 's', ':', '/', '/']
      ++ (host ++ '/' :: (oh :: ot))) ++ '/' :: n))
      = some ⟨"https", String.mk host,
          String.mk ('/' :: ((oh :: ot) ++ '/' :: n)), "", "", ""⟩ := by
    unfold pyUrlparse
    simp only [toList_mk]
    rw [hru]
    rw [show extractScheme ((['h', 't', 't', 'p', 's', ':', '/', '/']
        ++ (host ++ '/' :: (oh :: ot))) ++ '/' :: n)
      = (['h', 't', 't', 'p', 's'],
        '/' :: '/' :: ((host ++ '/' :: (oh :: ot)) ++ '/' :: n)) from rfl]
    simp only []
    rw [if_pos (show (('/' : Char) :: '/' :: ((host ++ '/' :: (oh :: ot)) ++ '/' :: n)).take 2
      = ['/', '/'] from rfl)]
    rw [show (('/' : Char) :: '/' :: ((host ++ '/' :: (oh :: ot)) ++ '/' :: n)).drop 2
      = (host ++ '/' :: (oh :: ot)) ++ '/' :: n from rfl]
    rw [show (host ++ '/' :: (oh :: ot)) ++ '/' :: n
      = host ++ '/' :: ((oh :: ot) ++ '/' :: n) by simp]
    rw [hsn]
    rw [if_neg (show ¬(('[' : Char) ∈ host ∨ (']' : Char) ∈ host) from
      fun hor => hor.elim hbl hbr)]
    simp only []
    rw [pyPartition_not_mem '#' _ hhash]
    simp only []
    rw [pyPartition_not_mem '?' _ hquest]
    simp only []
    rw [show ('/' : Char) :: ((oh :: ot) ++ '/' :: n)
      = ('/' :: (oh :: ot)) ++ '/' :: n from rfl]
    rw [pySplitparams_last_seg ('/' :: (oh :: ot)) n hsemi hnsl]
  have hcu2 : clean_url (String.mk ((['h', 't', 't', 'p', 's', ':', '/', '/']
      ++ (host ++ '/' :: (oh :: ot))) ++ '/' :: n))
      = some ⟨"https", String.mk host,
          String.mk ('/' :: ((oh :: ot) ++ '/' :: n)), "", "", ""⟩ := by
    unfold clean_url
    rw [toList_mk, hms]
    show pyUrlparse (String.mk (replaceAll [] _)) = _
    rw [replaceAll_nil]
    exact hpu
  rw [parse_remote_url_url_branch _ allowed _ hcu2 rfl hal]
  rw [toList_mk]
  rw [show stripChar '/' ('/' :: ((oh :: ot) ++ '/' :: n))
    = (oh :: ot) ++ '/' :: n from by
    unfold stripChar stripBy lstripBy
    rw [List.dropWhile_cons_of_pos (by decide)]
    rw [show (oh :: ot) ++ '/' :: n = oh :: (ot ++ '/' :: n) from rfl]
    rw [List.dropWhile_cons_of_neg (by simpa using hoh)]
    rw [show (oh : Char) :: (ot ++ '/' :: n) = (oh :: ot) ++ '/' :: n from rfl]
    exact rstripChar_two_seg (oh :: ot) n hn hnsl]
  rw [splitChar_two_seg (oh :: ot) n hosl hnsl]

/-- Re-normalizing the reconstruction `https:owner/name` recovers the
original parse result (empty host case, reachable only when the empty
hostname is allow-listed). -/
theorem parse_recon_nohost (allowed : List String) (oh : Char) (ot n : List Char)
    (hal : String.mk ([] : List Char) ∈ allowed)
    (hseg0 : ∀ c ∈ oh :: ot, segOkC c)
    (hseg1 : ∀ c ∈ n, segOkC c)
    (hn : n ≠ []) (hsemi : ';' ∉ n) :
    parse_remote_url
        (String.mk ((['h', 't', 't', 'p', 's', ':'] ++ (oh :: ot)) ++ '/' :: n)) allowed
      = some ⟨"https", String.mk [], String.mk ((oh :: ot) ++ '/' :: n), "", "", ""⟩ := by
  have hnsl : '/' ∉ n := fun hm => (hseg1 '/' hm).1 rfl
  have hosl : '/' ∉ oh :: ot := fun hm => (hseg0 '/' hm).1 rfl
  have hoh : oh ≠ '/' := fun he => hosl (he ▸ List.mem_cons_self oh ot)
  have hms : markerSearch ((['h', 't', 't', 'p', 's', ':'] ++ (oh :: ot)) ++ '/' :: n)
      = some [] := rfl
  have hru : removeUnsafe ((['h', 't', 't', 'p', 's', ':'] ++ (oh :: ot)) ++ '/' :: n)
      = (['h', 't', 't', 'p', 's', ':'] ++ (oh :: ot)) ++ '/' :: n := by
    apply List.filter_eq_self.mpr
    intro c hc
    have hcu : urlUnsafe c = false := by
      rcases List.mem_append.mp hc with hc | hc
      · rcases List.mem_append.mp hc with hc | hc
        · exact (show ∀ x ∈ (['h', 't', 't', 'p', 's', ':'] : List Char),
            urlUnsafe x = false by decide) c hc
        · exact (hseg0 c hc).2.2.2
      · rcases List.mem_cons.mp hc with hc | hc
        · subst hc; decide
        · exact (hseg1 c hc).2.2.2
    simp [hcu]
  have hhash : ('#' : Char) ∉ (oh :: ot) ++ '/' :: n := by
    intro hm
    rcases List.mem_append.mp hm with hm | hm
    · exact (hseg0 '#' hm).2.2.1 rfl
    · rcases List.mem_cons.mp hm with hm | hm
      · exact absurd hm (by decide)
      · exact (hseg1 '#' hm).2.2.1 rfl
  have hquest : ('?' : Char) ∉ (oh :: ot) ++ '/' :: n := by
    intro hm
    rcases List.mem_append.mp hm with hm | hm
    · exact (hseg0 '?' hm).2.1 rfl
    · rcases List.mem_cons.mp hm with hm | hm
      · exact absurd hm (by decide)
      · exact (hseg1 '?' hm).2.1 rfl
  have hpu : pyUrlparse (String.mk ((['h', 't', 't', 'p', 's', ':']
      ++ (oh :: ot)) ++ '/' :: n))
      = some ⟨"https", String.mk [],
          String.mk ((oh :: ot) ++ '/' :: n), "", "", ""⟩ := by
    unfold pyUrlparse
    simp only [toList_mk]
    rw [hru]
    rw [show extractScheme ((['h', 't', 't', 'p', 's', ':'] ++ (oh :: ot)) ++ '/' :: n)
      = (['h', 't', 't', 'p', 's'], (oh :: ot) ++ '/' :: n) from rfl]
    simp only []
    rw [if_neg (show ¬((oh :: ot) ++ '/' :: n).take 2 = ['/', '/'] from by
      intro h2
      have hh := congrArg List.head? h2
      simp at hh
      exact hoh hh)]
    rw [if_neg (show ¬(('[' : Char) ∈ ([] : List Char) ∨ (']' : Char) ∈ ([] : List Char))
      from by simp)]
    simp only []
    rw [pyPartition_not_mem '#' _ hhash]
    simp only []
    rw [pyPartition_not_mem '?' _ hquest]
    simp only []
    rw [show (oh : Char) :: ot ++ '/' :: n = (oh :: ot) ++ '/' :: n from rfl]
    rw [pySplitparams_last_seg (oh :: ot) n hsemi hnsl]
  have hcu2 : clean_url (String.mk ((['h', 't', 't', 'p', 's', ':']
      ++ (oh :: ot)) ++ '/' :: n))
      = some ⟨"https", String.mk [],
          String.mk ((oh :: ot) ++ '/' :: n), "", "", ""⟩ := by
    unfold clean_url
    rw [toList_mk, hms]
    show pyUrlparse (String.mk (replaceAll [] _)) = _
    rw [replaceAll_nil]
    exact hpu
  rw [parse_remote_url_url_branch _ allowed _ hcu2 rfl hal]
  rw [toList_mk]
  rw [show stripChar '/' ((oh :: ot) ++ '/' :: n) = (oh :: ot) ++ '/' :: n from by
    unfold stripChar stripBy lstripBy
    rw [show (oh :: ot) ++ '/' :: n = oh :: (ot ++ '/' :: n) from rfl]
    rw [List.dropWhile_cons_of_neg (by simpa using hoh)]
    rw [show (oh : Char) :: (ot ++ '/' :: n) = (oh :: ot) ++ '/' :: n from rfl]
    exact rstripChar_two_seg (oh :: ot) n hn hnsl]
  rw [splitChar_two_seg (oh :: ot) n hosl hnsl]

/-- C5, amended.  Round-trip stability of normalization holds under the
conditions that the counterexamples delimit: for every URL whose
normalization succeeds with a non-empty result, provided the host contains
no `/`, `[` or `]`, the owner and name segments are non-empty, and the
name does not end in `.git` or in a space and contains no `;`
(each excluded case is a further round-trip failure of the same kind as
the `.git` counterexample), reconstructing the canonical https URL with
`get_remote_vcs_url` and normalizing the reconstruction again returns the
identical parse result — the same (host, owner, name). -/
theorem get_remote_vcs_url_roundtrip (url : String) (allowed : List String)
    (r : PyParseResult)
    (h : parse_remote_url url allowed = some r)
    (hne : r ≠ emptyParseResult)
    (hsl : '/' ∉ r.netloc.toList)
    (hbl : '[' ∉ r.netloc.toList)
    (hbr : ']' ∉ r.netloc.toList)
    (how : ownerOf r.path ≠ "")
    (hnw : nameOf r.path ≠ "")
    (hgit : endsL ".git".toList (nameOf r.path).toList = false)
    (hsp : (nameOf r.path).toList.getLast? ≠ some ' ')
    (hsemi : ';' ∉ (nameOf r.path).toList) :
    parse_remote_url (get_remote_vcs_url url allowed) allowed = some r := by
  rcases parse_remote_url_inv url allowed r h with he
    | ⟨host, p0, p1, hr, hal, hhostok, hseg0, hseg1⟩
  · exact absurd he hne
  subst hr
  have hp0slash : '/' ∉ p0 := fun hm => (hseg0 '/' hm).1 rfl
  have hp1slash : '/' ∉ p1 := fun hm => (hseg1 '/' hm).1 rfl
  have hpred : ∀ x ∈ p0, decide (x ≠ '/') = true := by
    intro x hx
    simp only [decide_eq_true_eq]
    intro he
    exact hp0slash (he ▸ hx)
  have howeq : ownerOf (String.mk (p0 ++ '/' :: p1)) = String.mk p0 := by
    unfold ownerOf
    rw [toList_mk, takeWhile_append_stop _ p0 '/' p1 hpred (by simp)]
  have hneq : nameOf (String.mk (p0 ++ '/' :: p1)) = String.mk p1 := by
    unfold nameOf
    rw [toList_mk, dropWhile_append_stop _ p0 '/' p1 hpred (by simp)]
    rfl
  have how' : ownerOf (String.mk (p0 ++ '/' :: p1)) ≠ "" := how
  have hnw' : nameOf (String.mk (p0 ++ '/' :: p1)) ≠ "" := hnw
  have hp0ne : p0 ≠ [] := by
    intro he
    apply how'
    rw [howeq, he]
  have hp1ne : p1 ≠ [] := by
    intro he
    apply hnw'
    rw [hneq, he]
  have hgit0 : endsL ".git".toList
      (nameOf (String.mk (p0 ++ '/' :: p1))).toList = false := hgit
  rw [hneq, toList_mk] at hgit0
  have hsp0 : (nameOf (String.mk (p0 ++ '/' :: p1))).toList.getLast? ≠ some ' ' := hsp
  rw [hneq, toList_mk] at hsp0
  have hsemi0 : ';' ∉ (nameOf (String.mk (p0 ++ '/' :: p1))).toList := hsemi
  rw [hneq, toList_mk] at hsemi0
  have hsl' : '/' ∉ host := hsl
  have hbl' : '[' ∉ host := hbl
  have hbr' : ']' ∉ host := hbr
  obtain ⟨oh, ot, rfl⟩ : ∃ oh ot, p0 = oh :: ot := by
    cases p0 with
    | nil => exact absurd rfl hp0ne
    | cons a b => exact ⟨a, b, rfl⟩
  have hohne : oh ≠ '/' := fun he => hp0slash (he ▸ List.mem_cons_self oh ot)
  have hgv : get_remote_vcs_url url allowed
      = clean_up_repo_path (urlunparse
          ⟨"https", String.mk host, String.mk ((oh :: ot) ++ '/' :: p1), "", "", ""⟩) := by
    unfold get_remote_vcs_url
    simp only [h]
  by_cases hh0 : host = []
  · subst hh0
    rw [hgv, urlunparse_nohost_shape oh ot p1 hohne,
      clean_up_repo_path_recon (['h', 't', 't', 'p', 's', ':'] ++ (oh :: ot)) p1
        rfl hp1ne hsp0 hp1slash hgit0]
    exact parse_recon_nohost allowed oh ot p1 hal hseg0 hseg1 hp1ne hsemi0
  · rw [hgv, urlunparse_host_shape host oh ot p1 hh0 hohne,
      clean_up_repo_path_recon
        (['h', 't', 't', 'p', 's', ':', '/', '/'] ++ (host ++ '/' :: (oh :: ot))) p1
        rfl hp1ne hsp0 hp1slash hgit0]
    exact parse_recon_host allowed host oh ot p1 hal hhostok hsl' hbl' hbr'
      hseg0 hseg1 hp1ne hsemi0

/-- Witness for the amended C5 at a concrete URL satisfying every side
condition. -/
theorem get_remote_vcs_url_roundtrip_witness :
    parse_remote_url
        (get_remote_vcs_url "https://github.com/apache/maven" ["github.com"])
        ["github.com"]
      = some ⟨"https", "github.com", "apache/maven", "", "", ""⟩ :=
  get_remote_vcs_url_roundtrip "https://github.com/apache/maven" ["github.com"]
    ⟨"https", "github.com", "apache/maven", "", "", ""⟩
    (by decide) (by decide) (by decide) (by decide) (by decide)
    (by decide) (by decide) (by decide) (by decide) (by decide)

/-! ### Counterexamples for claims C4 and C5 -/

/-- C4, counterexample.  The claim states that `parse_remote_url` returns
absent when the scheme is not a recognized dialect.  False: for
`sshx://github.com/owner/repo` the marker search matches `ssh` at position
0, `urlparse` reads the scheme `sshx`, no dialect branch fires, and the
function returns the all-empty `ParseResult` — a truthy value in Python —
instead of `None`. -/
theorem parse_remote_url_unknown_scheme_not_none :
    parse_remote_url "sshx://github.com/owner/repo" ["github.com"]
        = some emptyParseResult ∧
      parse_remote_url "sshx://github.com/owner/repo" ["github.com"] ≠ none := by
  exact ⟨by decide, by decide⟩

/-- C5, counterexample.  The claim states that reconstructing and
re-normalizing any successfully normalized URL yields the same canonical
identity.  False: `https://github.com/owner/.git` normalizes successfully
(owner `owner`, name `.git`), but the reconstruction
`get_remote_vcs_url` strips the trailing `.git`, leaving
`https://github.com/owner/` with a single path segment, which does not
normalize at all. -/
theorem parse_remote_url_roundtrip_fails_on_dotgit_name :
    parse_remote_url "https://github.com/owner/.git" ["github.com"]
        = some ⟨"https", "github.com", "owner/.git", "", "", ""⟩ ∧
      parse_remote_url
          (get_remote_vcs_url "https://github.com/owner/.git" ["github.com"])
          ["github.com"] = none := by
  exact ⟨by decide, by decide⟩

/-- Witness for C7: a concrete environment in which `origin/main` is not
among the branches containing the digest, so the call fails with no
checkout issued and HEAD unchanged. -/
theorem check_out_repo_target_branch_and_digest_witness :
    ("origin/main" : String)
        ∉ get_branches_containing_commit
            ⟨"aaa", fun _ => some "ddd", fun _ _ => some "  origin/dev\n"⟩ "deadbeef" "origin" ∧
      check_out_repo_target
          ⟨"aaa", fun _ => some "ddd", fun _ _ => some "  origin/dev\n"⟩
          "main" "deadbeef" false
        = ⟨false, "aaa", []⟩ := by
  have hnm : ("origin/main" : String)
      ∉ get_branches_containing_commit
          ⟨"aaa", fun _ => some "ddd", fun _ _ => some "  origin/dev\n"⟩ "deadbeef" "origin" := by
    decide
  exact ⟨hnm,
    ((check_out_repo_target_branch_and_digest
        ⟨"aaa", fun _ => some "ddd", fun _ _ => some "  origin/dev\n"⟩
        "main" "deadbeef" false (by decide) (by decide)).1 hnm).trans (by rfl)⟩

end GitUrl
